import Mathlib

/-!
Verification of the memov snapshot-version-control core against its
natural-language specification.

The embedding translates `src/memov/core/manager.py` (MemovManager),
`src/memov/storage/chunker.py` (TextChunker), `src/memov/storage/vectordb.py`
(VectorDB) and `src/mem_mcp_server/server/mcp_server.py` (MemMCPTools)
into pure Lean functions over an explicit state.

Modelling conventions:
- File contents are `String`s; the store is content-addressed, so a blob id is
  modelled by the content itself (`blobHash` is the identity map, which is
  injective exactly as a cryptographic hash is assumed to be).
- Commit ids are indices into the store's commit list; the textual hash used
  in vector metadata is `toString` of the index.
- Python dicts keyed by path are modelled as association lists with the
  dict-assignment operation `treeInsert` (overwrite in place, else append).
- Branch names are generated only by the system, as the literals "main" and
  "develop/<N>"; they are modelled by the inductive `BranchName`, whose
  constructors correspond to those distinct strings.
- `memov/core/git.py` (GitManager) is not part of the provided sources; its
  operations are modelled from the spec where noted (sections 4.A and 4.B).
- Wall-clock timestamps are not modelled; no settled claim depends on them.
-/

namespace Memov

/-- Branch names created by the system: the literal "main", the generated
"develop/<N>" family, and a catch-all for any other string key. -/
inductive BranchName where
  | main : BranchName
  | develop (n : Nat) : BranchName
  | other (s : String) : BranchName
deriving DecidableEq, Repr

/-- Operation result statuses of MemovManager (class MemStatus in manager.py). -/
inductive MemStatus where
  | success
  | projectNotFound
  | bareRepoNotFound
  | failedToCommit
  | unknownError
deriving DecidableEq, Repr

/-- A tree maps project-relative paths to blob ids (the nested dict
`tree_structure` of manager.py, flattened to full relative paths). -/
abbrev Tree := List (String × String)

/-- Content addressing: the blob id of a file content.  Identity models an
injective cryptographic hash. -/
def blobHash (content : String) : String := content

/-- Lookup in an association list keyed by path (Python dict access). -/
def lookupTree (t : Tree) (p : String) : Option String :=
  (t.find? (fun e => e.1 = p)).map (fun e => e.2)

/-- Python dict assignment on an association list: overwrite the binding in
place if the key exists, otherwise append it. -/
def treeInsert (t : Tree) (k v : String) : Tree :=
  if t.any (fun e => e.1 = k) then
    t.map (fun e => if e.1 = k then (k, v) else e)
  else
    t ++ [(k, v)]

/-- A commit: root tree, optional parent, and the free-form message
(spec section 3, written by GitManager per section 4.A). -/
structure Commit where
  tree : Tree
  parent : Option Nat
  message : String
deriving DecidableEq, Repr

/-- The branches catalog persisted as `.mem/branches.json` (spec section 3):
a current-branch pointer and named tips.  A tip of `none` models the empty
string an uninitialized branch holds in the JSON document. -/
structure BranchesCfg where
  current : Option BranchName
  branches : List (BranchName × Option Nat)
deriving DecidableEq, Repr

/-- One pending VectorDB write, as built by `_add_to_pending_writes`. -/
structure PendingWrite where
  operationType : String
  commitHash : Nat
  prompt : Option String
  response : Option String
  agentPlan : Option String
  byUser : Bool
  files : List String
  parentHash : Option Nat
deriving DecidableEq, Repr

/-- Base metadata of a vector record as assembled in `sync_to_vectordb`.
`parentHash` is `Option String` because the Python value is a hash string or
None (the claim about the empty-string default is settled below). -/
structure BaseMeta where
  operationType : String
  source : String
  files : String
  commitHash : String
  parentHash : Option String
deriving DecidableEq, Repr

/-- Metadata after `insert_splitted` adds the role tag. -/
structure RoleMeta where
  base : BaseMeta
  role : String
deriving DecidableEq, Repr

/-- Metadata after `chunk_with_metadata` adds per-chunk fields. -/
structure ChunkMeta where
  rm : RoleMeta
  chunkIndex : Nat
  totalChunks : Nat
  chunkText : String
deriving DecidableEq, Repr

/-- One persisted vector record (id, text, metadata). -/
structure VRecord where
  id : String
  text : String
  meta : ChunkMeta
deriving DecidableEq, Repr

/-- The whole observable state: the bare object store (commits and blobs), the
moving ref `refs/memov/HEAD`, the branches catalog, the in-memory
pending-writes list of the live MemovManager, the persistent vector index, and
the two existence flags the initialization path tests. -/
structure State where
  commits : List Commit
  blobs : List String
  head : Option Nat
  branchesCfg : Option BranchesCfg
  pending : List PendingWrite
  vdb : List VRecord
  bareRepoExists : Bool
  memignoreExists : Bool
deriving DecidableEq, Repr

/-- The workspace: project-relative path to current file content. -/
abbrev Workspace := List (String × String)

/-- First binding of a path in the workspace. -/
def wsGet (ws : Workspace) (p : String) : Option String :=
  (ws.find? (fun e => e.1 = p)).map (fun e => e.2)

/-- Idempotent content-addressed blob store insertion (spec section 4.A:
all writes are content-addressed and idempotent). -/
def insertBlob (bl : List String) (b : String) : List String :=
  if b ∈ bl then bl else bl ++ [b]

/-- Modelled from the spec: GitManager.write_blob (git.py is absent from
src/); section 4.A: write_blob(path) returns the content-addressed id and
stores the blob. -/
def writeBlobW (s : State) (content : String) : State × String :=
  ({ s with blobs := insertBlob s.blobs (blobHash content) }, blobHash content)

/-- Modelled from the spec: GitManager.get_files_and_blobs_by_commit (git.py
absent from src/); returns the path-to-blob map of the commit's tree. -/
def commitTree (s : State) (c : Nat) : Tree :=
  ((s.commits.get? c).map (fun cm => cm.tree)).getD []

/-- Modelled from the spec: GitManager.get_files_by_commit (git.py absent
from src/); the tracked relative paths at a commit. -/
def commitFiles (s : State) (c : Nat) : List String :=
  (commitTree s c).map (fun e => e.1)

/-- Modelled from the spec: GitManager.create_commit_from_tree_structure
(git.py absent from src/); section 4.E: the new commit's parent is HEAD. -/
def createCommitFromTree (s : State) (t : Tree) (msg : String) : State × Nat :=
  let c := s.commits.length
  ({ s with commits := s.commits ++ [⟨t, s.head, msg⟩] }, c)

/-- Python rendering of an optional string inside an f-string: None prints
as "None". -/
def optStr : Option String → String
  | some s => s
  | none => "None"

/-- The Source line value of a commit message. -/
def srcStr (byUser : Bool) : String := if byUser then "User" else "AI"

/-- The filter of `_filter_new_files`: drop paths already tracked (when a
tracked list is given), and drop ignored paths, except that `.memignore`
itself is never ignored by the rules. -/
def shouldFilter (ign : String → Bool) (tracked : Option (List String)) (p : String) : Bool :=
  (match tracked with
   | some t => decide (p ∈ t)
   | none => false) ||
  (if p = ".memignore" then false else ign p)

/-- MemovManager._filter_new_files on an explicit list of file paths: keep
paths that exist in the workspace and survive the filter, paired with their
current content. -/
def filterNewFiles (ign : String → Bool) (ws : Workspace) (tracked : Option (List String))
    (filePaths : List String) : List (String × String) :=
  filePaths.filterMap (fun p =>
    match wsGet ws p with
    | none => none
    | some c => if shouldFilter ign tracked p then none else some (p, c))

/-- MemovManager._filter_new_files called on the project root: the recursive
directory walk enumerates the whole workspace and applies the same filter. -/
def scanWorkspace (ign : String → Bool) (ws : Workspace) (tracked : Option (List String)) :
    List (String × String) :=
  ws.filter (fun e => !(shouldFilter ign tracked e.1))

/-- Catalog lookup (Python dict access on branches["branches"]). -/
def lookupBr (bs : List (BranchName × Option Nat)) (n : BranchName) : Option (Option Nat) :=
  (bs.find? (fun e => e.1 = n)).map (fun e => e.2)

/-- Dict assignment on the branches catalog. -/
def brSet (bs : List (BranchName × Option Nat)) (k : BranchName) (v : Option Nat) :
    List (BranchName × Option Nat) :=
  if bs.any (fun e => e.1 = k) then
    bs.map (fun e => if e.1 = k then (k, v) else e)
  else
    bs ++ [(k, v)]

/-- Helper loop of `_next_develop_branch`: starting from i, return the first
index whose develop branch name is not yet a key.  Fuel bounds the recursion;
`nextDevelop` supplies enough fuel for the loop to finish. -/
def nextDevelopAux (bs : List (BranchName × Option Nat)) : Nat → Nat → Nat
  | 0, i => i
  | fuel + 1, i =>
      if bs.any (fun e => e.1 = BranchName.develop i) then
        nextDevelopAux bs fuel (i + 1)
      else i

/-- MemovManager._next_develop_branch: the smallest N such that develop/<N>
is not an existing branch name. -/
def nextDevelop (bs : List (BranchName × Option Nat)) : Nat :=
  nextDevelopAux bs (bs.length + 1) 0

/-- MemovManager._validate_and_fix_branches: patch an empty main tip with
HEAD when HEAD exists, and reset an invalid current pointer to main. -/
def validateAndFixBranches (s : State) : State :=
  match s.branchesCfg with
  | none => s
  | some cfg =>
      let branches2 := cfg.branches.map (fun e =>
        if e.2 = none ∧ e.1 = BranchName.main ∧ s.head.isSome then (e.1, s.head) else e)
      let current2 :=
        match cfg.current with
        | some c => if (branches2.find? (fun e => e.1 = c)).isSome then some c
                    else some BranchName.main
        | none => none
      { s with branchesCfg := some ⟨current2, branches2⟩ }

/-- MemovManager._update_branch: the branch-advance algorithm of spec
section 4.B.  The final `update_ref` of refs/memov/HEAD is modelled by
setting `head` (spec-modelled: git.py is absent from src/). -/
def updateBranch (s : State) (newCommit : Nat) (resetCurrentBranch : Bool) : State :=
  match s.branchesCfg with
  | none =>
      { s with branchesCfg := some ⟨some BranchName.main, [(BranchName.main, some newCommit)]⟩,
               head := some newCommit }
  | some cfg =>
      if resetCurrentBranch then
        let cfg2 :=
          match cfg.current with
          | some cb =>
              if (cfg.branches.find? (fun e => e.1 = cb)).isSome then
                match s.head with
                | some h => { cfg with branches := brSet cfg.branches cb (some h), current := none }
                | none => { cfg with current := (none : Option BranchName) }
              else { cfg with current := (none : Option BranchName) }
          | none => { cfg with current := (none : Option BranchName) }
        { s with branchesCfg := some cfg2, head := some newCommit }
      else
        let cfg2 :=
          match cfg.current with
          | some cb =>
              if (cfg.branches.find? (fun e => e.1 = cb)).isSome then
                { cfg with branches := brSet cfg.branches cb (some newCommit) }
              else updateBranchScan cfg s.head newCommit
          | none => updateBranchScan cfg s.head newCommit
        { s with branchesCfg := some cfg2, head := some newCommit }
where
  /-- The branch scan of `_update_branch` when no current branch applies:
  advance the branch whose tip equals HEAD, else claim an empty main, else
  allocate the next develop branch.  The Python comparison
  head_commit == commit_hash only succeeds when HEAD is a real hash. -/
  updateBranchScan (cfg : BranchesCfg) (head : Option Nat) (newCommit : Nat) : BranchesCfg :=
    let found : Option (BranchName × Option Nat) :=
      match head with
      | some h => cfg.branches.find? (fun e => e.2 = some h)
      | none => none
    match found with
    | some (n, _) =>
        { cfg with branches := brSet cfg.branches n (some newCommit), current := some n }
    | none =>
        match lookupBr cfg.branches BranchName.main with
        | some none =>
            { cfg with branches := brSet cfg.branches BranchName.main (some newCommit),
                       current := some BranchName.main }
        | _ =>
            let nb := BranchName.develop (nextDevelop cfg.branches)
            { cfg with branches := cfg.branches ++ [(nb, some newCommit)], current := some nb }

/-- MemovManager._add_to_pending_writes: read HEAD after the branch update,
compare with the new commit hash, and append the entry to the in-memory
pending list. -/
def addToPendingWrites (s : State) (op : String) (c : Nat)
    (prompt response agentPlan : Option String) (byUser : Bool) (files : List String) : State :=
  let parent : Option Nat :=
    match s.head with
    | some h => if h ≠ c then some h else none
    | none => none
  { s with pending := s.pending ++ [⟨op, c, prompt, response, agentPlan, byUser, files, parent⟩] }

/-- MemovManager._commit: validate branches, write blobs of the given files
from the workspace, build the tree, commit with HEAD as parent, and advance
the branch.  The blob writing and commit creation correspond to
GitManager.write_blob_to_bare_repo, modelled from spec section 4.E (files no
longer present in the workspace are dropped). -/
def commitOp (s : State) (ws : Workspace) (msg : String) (relPaths : List String) :
    State × Nat :=
  let s0 := validateAndFixBranches s
  let present := relPaths.filterMap (fun p => (wsGet ws p).map (fun c => (p, c)))
  let s1 := { s0 with blobs := present.foldl (fun bl e => insertBlob bl (blobHash e.2)) s0.blobs }
  let t := present.foldl (fun t e => treeInsert t e.1 (blobHash e.2)) ([] : Tree)
  let rc := createCommitFromTree s1 t msg
  (updateBranch rc.1 rc.2 false, rc.2)

/-- One step of the tree construction for files tracked at HEAD: reuse the
HEAD blob id; a path missing from the HEAD blob map is skipped (the source's
`if blob_hash:` guard). -/
def inheritStep (headBlobs : Tree) (t : Tree) (p : String) : Tree :=
  match lookupTree headBlobs p with
  | some b => treeInsert t p b
  | none => t

/-- One step of the tree construction for newly tracked files: write a fresh
blob from the workspace content and bind the path to it. -/
def trackStep (acc : State × Tree) (e : String × String) : State × Tree :=
  ((writeBlobW acc.1 e.2).1, treeInsert acc.2 e.1 (writeBlobW acc.1 e.2).2)

/-- The Files line and commit message of a track operation. -/
def trackMsg (newFiles : List (String × String)) (prompt response : Option String)
    (byUser : Bool) : String :=
  "Track files\n\nFiles: " ++ String.intercalate ", " (newFiles.map (fun e => e.1)) ++
  "\nPrompt: " ++ optStr prompt ++ "\nResponse: " ++ optStr response ++
  "\nSource: " ++ srcStr byUser

/-- MemovManager.track: commit the given not-yet-tracked files; files already
tracked at HEAD keep their HEAD blob ids (manager.py lines 139-278).  Returns
the new state, the created commit (if one was created) and the status.  The
fallback lookup of a bare-repo "main" ref resolves to nothing here: the
modelled bare repository stores only refs/memov/HEAD (spec section 3). -/
def track (s : State) (ws : Workspace) (ign : String → Bool) (filePaths : List String)
    (prompt response : Option String) (byUser : Bool) : State × Option Nat × MemStatus :=
  if filePaths = [] then (s, none, .success)
  else
    let headC := s.head
    let tracked := match headC with
      | some h => commitFiles s h
      | none => []
    let newFiles := filterNewFiles ign ws (some tracked) filePaths
    if newFiles = [] then (s, none, .success)
    else
      match headC with
      | some h =>
          let headBlobs := commitTree s h
          let tree0 := tracked.foldl (inheritStep headBlobs) ([] : Tree)
          let r := newFiles.foldl trackStep (s, tree0)
          let msg := trackMsg newFiles prompt response byUser
          let rc := createCommitFromTree r.1 r.2 msg
          let s3 := validateAndFixBranches rc.1
          let s4 := updateBranch s3 rc.2 false
          let s5 := addToPendingWrites s4 "track" rc.2 prompt response none byUser
            (newFiles.map (fun e => e.1))
          (s5, some rc.2, .success)
      | none =>
          let msg := trackMsg newFiles prompt response byUser
          let rc := commitOp s ws msg (newFiles.map (fun e => e.1))
          let s3 := addToPendingWrites rc.1 "track" rc.2 prompt response none byUser
            (newFiles.map (fun e => e.1))
          (s3, some rc.2, .success)

/-- The tree-building loop of the partial snapshot: for every tracked path,
take a fresh workspace blob when the path was specified and exists, otherwise
inherit the HEAD blob; a missing HEAD blob aborts with an error (the state
keeps any blobs already written, as in the source). -/
def buildPartialTree (ws : Workspace) (headBlobs : Tree) (spec : List String) :
    State → Tree → List String → State × Option Tree
  | s, t, [] => (s, some t)
  | s, t, p :: rest =>
      let sb : State × Option String :=
        if p ∈ spec then
          match wsGet ws p with
          | some c => ((writeBlobW s c).1, some (writeBlobW s c).2)
          | none => (s, lookupTree headBlobs p)
        else (s, lookupTree headBlobs p)
      match sb.2 with
      | none => (sb.1, none)
      | some b => buildPartialTree ws headBlobs spec sb.1 (treeInsert t p b) rest

/-- MemovManager.snapshot (manager.py lines 280-464): partial form when file
paths are given (specified files reread from the workspace, the rest inherited
from HEAD), all-files form otherwise (every tracked file still present is
reread; untracked files are excluded).  Path normalization to project-relative
form is a no-op here because all modelled paths are project-relative. -/
def snapshot (s : State) (ws : Workspace) (ign : String → Bool)
    (filePaths : Option (List String)) (prompt response agentPlan : Option String)
    (byUser : Bool) : State × Option Nat × MemStatus :=
  let headC := s.head
  let tracked := match headC with
    | some h => commitFiles s h
    | none => []
  if tracked = [] then (s, none, .success)
  else
    match filePaths with
    | some fps =>
        let specified := fps.dedup
        let trackedSpecified := specified.filter (fun p => p ∈ tracked)
        if trackedSpecified = [] then (s, none, .success)
        else
          match headC with
          | none => (s, none, .success)
          | some h =>
              let headBlobs := commitTree s h
              let bp := buildPartialTree ws headBlobs trackedSpecified s ([] : Tree) tracked
              match bp.2 with
              | none => (bp.1, none, .unknownError)
              | some t =>
                  let msg := "Create snapshot\n\nFiles: " ++
                    String.intercalate ", " trackedSpecified ++
                    "\nPrompt: " ++ optStr prompt ++ "\nResponse: " ++ optStr response ++
                    "\nSource: " ++ srcStr byUser
                  let rc := createCommitFromTree bp.1 t msg
                  let s3 := validateAndFixBranches rc.1
                  let s4 := updateBranch s3 rc.2 false
                  let s5 := addToPendingWrites s4 "snap" rc.2 prompt response agentPlan byUser
                    trackedSpecified
                  (s5, some rc.2, .success)
    | none =>
        let _newFiles := scanWorkspace ign ws (some tracked)
        let msg := "Create snapshot\n\nPrompt: " ++ optStr prompt ++
          "\nResponse: " ++ optStr response ++ "\nSource: " ++ srcStr byUser
        let rc := commitOp s ws msg tracked
        let s3 := addToPendingWrites rc.1 "snap" rc.2 prompt response agentPlan byUser tracked
        (s3, some rc.2, .success)

/-- The workspace after os.rename(old, new): the binding of the old path is
renamed in place. -/
def wsRename (ws : Workspace) (old new : String) : Workspace :=
  ws.map (fun e => if e.1 = old then (new, e.2) else e)

/-- MemovManager.rename (manager.py lines 466-541): precondition checks, the
workspace rename, then a commit over the full workspace scan
(_filter_new_files on the project root with tracked_file_rel_paths=None).
Returns the state, the possibly changed workspace, and the created commit. -/
def rename (s : State) (ws : Workspace) (ign : String → Bool) (old new : String)
    (prompt response : Option String) (byUser : Bool) : State × Workspace × Option Nat :=
  let oldEx := (wsGet ws old).isSome
  let newEx := (wsGet ws new).isSome
  if oldEx && newEx then (s, ws, none)
  else if !oldEx && !newEx then (s, ws, none)
  else
    let tracked := match s.head with
      | some h => commitFiles s h
      | none => []
    if old ∉ tracked then (s, ws, none)
    else
      let ws2 := if oldEx then wsRename ws old new else ws
      let msgHead := if oldEx then "Rename file\n\n" else "Rename file (already renamed by user)\n\n"
      let msg := msgHead ++ "Files: " ++ old ++ " -> " ++ new ++
        "\nPrompt: " ++ optStr prompt ++ "\nResponse: " ++ optStr response ++
        "\nSource: " ++ srcStr byUser
      let fileList := scanWorkspace ign ws2 none
      let rc := commitOp s ws2 msg (fileList.map (fun e => e.1))
      let s3 := addToPendingWrites rc.1 "rename" rc.2 prompt response none byUser [old, new]
      (s3, ws2, some rc.2)

/-- The three difference sets reported by MemovManager.status. -/
structure FileStatus where
  untracked : List String
  deleted : List String
  modified : List String
deriving DecidableEq, Repr

/-- MemovManager.status (manager.py lines 748-810): compare HEAD's tree with
the workspace.  For every non-ignored workspace file the source calls
GitManager.write_blob, so each such file's blob lands in the object store
(spec section 4.A: write_blob stores the blob).  The source sorts the union
of paths before printing; the classification below keeps list order, which
does not change the three sets. -/
def statusOp (s : State) (ws : Workspace) (ign : String → Bool) : State × FileStatus :=
  let trackedBlobs := match s.head with
    | some h => commitTree s h
    | none => []
  let scan := scanWorkspace ign ws none
  let s1 := { s with blobs := scan.foldl (fun bl e => insertBlob bl (blobHash e.2)) s.blobs }
  let worktree : Tree := scan.map (fun e => (e.1, blobHash e.2))
  let untracked := (worktree.map (fun e => e.1)).filter
    (fun p => (lookupTree trackedBlobs p).isNone)
  let deleted := (trackedBlobs.map (fun e => e.1)).filter
    (fun p => (lookupTree worktree p).isNone)
  let modified := (trackedBlobs.map (fun e => e.1)).filter (fun p =>
    match lookupTree worktree p, lookupTree trackedBlobs p with
    | some wb, some tb => wb ≠ tb
    | _, _ => false)
  (s1, ⟨untracked, deleted, modified⟩)

/-- The default .memignore content written by MemovManager.init. -/
def defaultMemignore : String :=
  "# Add files/directories to ignore from memov tracking\n# Ignore all hidden files (starting with .)\n.*\n"

/-- MemovManager.init (manager.py lines 114-137): create the bare repository
if absent; if .memignore is absent, write it and track it (which creates the
bootstrap commit).  Returns the new state and the possibly extended
workspace. -/
def initOp (s : State) (ws : Workspace) (ign : String → Bool) : State × Workspace :=
  let s1 := { s with bareRepoExists := true }
  if s1.memignoreExists then (s1, ws)
  else
    let ws2 := ws ++ [(".memignore", defaultMemignore)]
    let s2 := { s1 with memignoreExists := true }
    let tr := track s2 ws2 ign [".memignore"]
      (some "Initialize .memignore") (some "Created default .memignore file") false
    (tr.1, ws2)

/-- Python str.strip: drop leading and trailing whitespace. -/
def pyStrip (cs : List Char) : List Char :=
  ((cs.dropWhile Char.isWhitespace).reverse.dropWhile Char.isWhitespace).reverse

/-- Python text.rfind(" ", start, stop): the largest index in [start, stop)
holding a space, if any. -/
def rfindSpace (cs : List Char) (start : Nat) : Nat → Option Nat
  | 0 => none
  | j + 1 =>
      if j < start then none
      else if cs.get? j = some ' ' then some j
      else rfindSpace cs start j

/-- The while loop of TextChunker.chunk_text (chunker.py lines 40-61),
one constructor case per iteration.  The loop-guard line of the source,
written `if start <= chunks[-1] if chunks else 0:`, parses as the conditional
expression `(start <= chunks[-1]) if chunks else 0`; whenever the chunk list
is non-empty it compares an int with a str and raises TypeError, modelled by
the error result.  Fuel bounds the recursion (the Python loop can also fail
to terminate for adversarial parameters); every settled statement concerns
runs that finish within the supplied fuel. -/
def chunkLoop (chunkSize overlap : Nat) (cs : List Char) :
    Nat → Nat → List (List Char) → Except String (List (List Char))
  | 0, _, _ => .error "model: fuel exhausted"
  | fuel + 1, start, chunks =>
      if start < cs.length then
        let e0 := start + chunkSize
        let e1 :=
          if e0 < cs.length then
            match rfindSpace cs start e0 with
            | some j => if start < j then j else e0
            | none => e0
          else e0
        let chunk := pyStrip ((cs.drop start).take (e1 - start))
        let chunks2 := if chunk.isEmpty then chunks else chunks ++ [chunk]
        let start2 := if e1 < cs.length then e1 - overlap else e1
        match chunks2 with
        | [] => chunkLoop chunkSize overlap cs fuel start2 chunks2
        | _ :: _ => .error "TypeError: unsupported comparison between int and str"
      else .ok chunks

/-- TextChunker.chunk_text (chunker.py lines 20-63): empty text yields no
chunks, text no longer than chunk_size yields itself, longer text enters the
while loop. -/
def chunkText (chunkSize overlap : Nat) (text : String) : Except String (List String) :=
  if text = "" then .ok []
  else if text.length ≤ chunkSize then .ok [text]
  else (chunkLoop chunkSize overlap text.data (text.length + 1) 0 []).map
    (fun l => l.map (fun cs => String.mk cs))

/-- VectorDB.insert (vectordb.py lines 148-198) for the chunker configuration
the manager constructs (chunk_size=768, default overlap=100): chunk the text
with per-chunk metadata and append one record per chunk; the record id is
doc_id ++ "_chunk_" ++ index when a doc id is given, else commit hash ++ "_"
++ index.  An error of the chunker propagates as the insert's exception. -/
def vdbInsert (vdb : List VRecord) (text : String) (rm : RoleMeta) (docId : Option String) :
    Except String (List VRecord) :=
  match chunkText 768 100 text with
  | .error e => .error e
  | .ok chunks =>
      let n := chunks.length
      let recs := chunks.enum.map (fun e =>
        let cid := match docId with
          | some d => d ++ "_chunk_" ++ toString e.1
          | none => rm.base.commitHash ++ "_" ++ toString e.1
        VRecord.mk cid e.2 ⟨rm, e.1, n, e.2⟩)
      .ok (vdb ++ recs)

/-- Modelled from the spec: VectorDB.insert_splitted is called by
MemovManager.sync_to_vectordb but absent from src/memov/storage/vectordb.py;
spec section 4.G: one insert per role for each of prompt, response and plan,
each tagging metadata.role and using doc_id_prefix = commit ++ "_" ++ role;
null or empty roles are skipped.  This helper performs one role's insert. -/
def insertRole (vdb : List VRecord) (value : Option String) (roleName : String)
    (commitHash : String) (base : BaseMeta) : Except String (List VRecord) :=
  match value with
  | none => .ok vdb
  | some t =>
      if t = "" then .ok vdb
      else vdbInsert vdb t ⟨base, roleName⟩ (some (commitHash ++ "_" ++ roleName))

/-- Modelled from the spec: VectorDB.insert_splitted (absent from src/, spec
section 4.G): three independent role inserts in the order prompt, response,
plan. -/
def insertSplitted (vdb : List VRecord) (commitHash : String)
    (prompt response agentPlan : Option String) (base : BaseMeta) :
    Except String (List VRecord) :=
  match insertRole vdb prompt "prompt" commitHash base with
  | .error e => .error e
  | .ok v1 =>
      match insertRole v1 response "response" commitHash base with
      | .error e => .error e
      | .ok v2 => insertRole v2 agentPlan "plan" commitHash base

/-- The textual commit hash used in vector metadata and record ids (commit
ids are store indices in this model). -/
def commitHashStr (c : Nat) : String := toString c

/-- The base metadata `sync_to_vectordb` assembles for one pending entry.
The source line is metadata["parent_hash"] = write_data.get("parent_hash",
""); the key is always present in the entry dict, so the stored value (a hash
string or None) is used and the empty-string default is dead. -/
def syncBaseMeta (e : PendingWrite) : BaseMeta :=
  ⟨e.operationType, if e.byUser then "user" else "ai",
   String.intercalate ", " e.files, commitHashStr e.commitHash,
   e.parentHash.map commitHashStr⟩

/-- One iteration of the sync loop: attempt the splitted insert for one
pending entry and bump the success or failure counter. -/
def syncStep (acc : List VRecord × Nat × Nat) (e : PendingWrite) : List VRecord × Nat × Nat :=
  match insertSplitted acc.1 (commitHashStr e.commitHash) e.prompt e.response e.agentPlan
    (syncBaseMeta e) with
  | .ok v2 => (v2, acc.2.1 + 1, acc.2.2)
  | .error _ => (acc.1, acc.2.1, acc.2.2 + 1)

/-- MemovManager.sync_to_vectordb (manager.py lines 1149-1201): drain the
pending list in order, one insert_splitted per entry, counting one success or
one failure per entry, then clear the list. -/
def syncToVectordb (s : State) : State × Nat × Nat :=
  if s.pending = [] then (s, 0, 0)
  else
    let fin := s.pending.foldl syncStep (s.vdb, 0, 0)
    ({ s with vdb := fin.1, pending := [] }, fin.2.1, fin.2.2)

/-- Python substring membership (the `in` operator on str). -/
def containsSub (hay sub : List Char) : Bool :=
  (List.range (hay.length + 1)).any (fun i => sub.isPrefixOf (hay.drop i))

/-- Python message.splitlines()[0] for a non-empty message: the characters
before the first line break. -/
def pyFirstLine (msg : String) : List Char :=
  msg.data.takeWhile (fun c => c ≠ '\n')

/-- MemovManager._extract_operation_type (manager.py lines 1074-1090):
keyword match on the lower-cased first line of the commit message. -/
def extractOperationType (msg : String) : String :=
  if msg = "" then "unknown"
  else
    let fl := (pyFirstLine msg).map Char.toLower
    if containsSub fl "track".data then "track"
    else if containsSub fl "snapshot".data || containsSub fl "snap".data then "snap"
    else if containsSub fl "rename".data then "rename"
    else if containsSub fl "remove".data then "remove"
    else "unknown"

/-- Python str.split(sep) for a single-character separator. -/
def splitOnChar (c : Char) : List Char → List (List Char)
  | [] => [[]]
  | x :: xs =>
      match splitOnChar c xs with
      | [] => [[]]
      | y :: ys => if x = c then [] :: y :: ys else (x :: y) :: ys

/-- Parsing of the files_changed argument: split on commas, strip each part,
drop empties (mcp_server.py iterates files_changed.split(",") skipping blank
entries). -/
def parseFiles (fc : String) : List String :=
  (((splitOnChar ',' fc.data).map pyStrip).filter (fun f => !f.isEmpty)).map
    (fun cs => String.mk cs)

/-- The numbered agent-plan string built by MemMCPTools.snap: None when the
plan list is empty, else each step on its own line prefixed with its
1-based index. -/
def planStr (agentPlan : List String) : Option String :=
  if agentPlan = [] then none
  else some (String.intercalate "\n"
    (agentPlan.enum.map (fun e => toString (e.1 + 1) ++ ". " ++ e.2)))

/-- Python Path(f).name: the last path component. -/
def baseName (p : String) : String :=
  (((splitOnChar '/' p.data).getLast?).map (fun cs => String.mk cs)).getD p

/-- The fields of one recorder turn's outcome: the final state (with the
per-call manager instance, and hence its in-memory pending list, discarded),
the possibly extended workspace, and the commits created by the manual,
track and AI-snapshot steps. -/
structure SnapResult where
  state : State
  ws : Workspace
  manualCommit : Option Nat
  trackCommit : Option Nat
  snapCommit : Option Nat
  ok : Bool
deriving DecidableEq, Repr

/-- The per-call MemovManager instance goes out of scope when the tool call
returns; its in-memory `_pending_writes` list is lost with it (the durable
state persists). -/
def discardPending (s : State) : State := { s with pending := [] }

/-- The AI-changes phase of MemMCPTools.snap: partition the claimed files
into untracked and modified using the status result, then issue one track
call and one partial-snapshot call, short-circuiting on a failure. -/
def serverSnapAI (s : State) (ws : Workspace) (ign : String → Bool)
    (userPrompt originalResponse : String) (agentPlan : List String)
    (parsed untracked : List String) (mC : Option Nat) : SnapResult :=
  let filesToTrack := parsed.filter (fun f => f ∈ untracked)
  let filesToSnap := parsed.filter (fun f => f ∉ untracked)
  if filesToTrack = [] then
    if filesToSnap = [] then ⟨discardPending s, ws, mC, none, none, true⟩
    else
      let sp := snapshot s ws ign (some filesToSnap)
        (some userPrompt) (some originalResponse) (planStr agentPlan) false
      ⟨discardPending sp.1, ws, mC, none, sp.2.1, sp.2.2 = MemStatus.success⟩
  else
    let tr := track s ws ign filesToTrack
      (some userPrompt) (some originalResponse) false
    if tr.2.2 ≠ MemStatus.success then ⟨discardPending tr.1, ws, mC, tr.2.1, none, false⟩
    else
      if filesToSnap = [] then ⟨discardPending tr.1, ws, mC, tr.2.1, none, true⟩
      else
        let sp := snapshot tr.1 ws ign (some filesToSnap)
          (some userPrompt) (some originalResponse) (planStr agentPlan) false
        ⟨discardPending sp.1, ws, mC, tr.2.1, sp.2.1, sp.2.2 = MemStatus.success⟩

/-- MemMCPTools.snap (mcp_server.py lines 57-355): a fresh MemovManager is
constructed for the call (empty pending list over the durable state);
initialize if the bare repository is absent; an empty files_changed records
nothing; otherwise run status, capture manual edits first, then track
untracked AI files, then partial-snapshot modified AI files. -/
def serverSnap (s : State) (ws : Workspace) (ign : String → Bool)
    (userPrompt originalResponse : String) (agentPlan : List String)
    (filesChanged : String) : SnapResult :=
  let mgr := { s with pending := [] }
  let iw := if mgr.bareRepoExists then (mgr, ws) else initOp mgr ws ign
  if pyStrip filesChanged.data = [] then ⟨discardPending iw.1, iw.2, none, none, none, true⟩
  else
    let st := statusOp iw.1 iw.2 ign
    let parsed := parseFiles filesChanged
    let manualFiles := st.2.modified.filter (fun p => p ∉ parsed)
    if manualFiles = [] then
      serverSnapAI st.1 iw.2 ign userPrompt originalResponse agentPlan parsed st.2.untracked none
    else
      let ms := snapshot st.1 iw.2 ign (some manualFiles)
        (some "Manual edits detected before AI operation")
        (some ("User manually edited: " ++
          String.intercalate ", " (manualFiles.map baseName)))
        none true
      if ms.2.2 ≠ MemStatus.success then ⟨discardPending ms.1, iw.2, ms.2.1, none, none, false⟩
      else
        serverSnapAI ms.1 iw.2 ign userPrompt originalResponse agentPlan parsed st.2.untracked
          ms.2.1

/-- Outcome of one MemMCPTools.mem_sync call: the state afterwards, the
pending count the call observed on its own manager instance, whether
sync_to_vectordb was invoked at all, and its counters. -/
structure SyncCallResult where
  state : State
  observedPending : Nat
  performedSync : Bool
  successful : Nat
  failed : Nat
deriving DecidableEq, Repr

/-- MemMCPTools.mem_sync (mcp_server.py lines 357-425): construct a fresh
MemovManager (empty in-memory pending list), read its pending count, return
early when it is zero, otherwise drain it. -/
def memSync (s : State) : SyncCallResult :=
  let mgr := { s with pending := [] }
  let cnt := mgr.pending.length
  if cnt = 0 then ⟨mgr, cnt, false, 0, 0⟩
  else
    let sy := syncToVectordb mgr
    ⟨sy.1, cnt, true, sy.2.1, sy.2.2⟩

/-- Direct parent relation between store indices in a state. -/
def parentOf (s : State) (c : Nat) : Option Nat :=
  ((s.commits.get? c).map (fun cm => cm.parent)).getD none

/-- Strict ancestry: a is reached from b by following one or more parent
links. -/
def Ancestor (s : State) (a b : Nat) : Prop :=
  Relation.TransGen (fun x y => parentOf s y = some x) a b

/-- Branch validation touches only the catalog. -/
theorem validateAndFix_commits (s : State) :
    (validateAndFixBranches s).commits = s.commits := by
  unfold validateAndFixBranches
  split <;> rfl

/-- Branch validation preserves HEAD. -/
theorem validateAndFix_head (s : State) :
    (validateAndFixBranches s).head = s.head := by
  unfold validateAndFixBranches
  split <;> rfl

/-- Branch validation preserves the pending list. -/
theorem validateAndFix_pending (s : State) :
    (validateAndFixBranches s).pending = s.pending := by
  unfold validateAndFixBranches
  split <;> rfl

/-- Branch validation preserves the blob store. -/
theorem validateAndFix_blobs (s : State) :
    (validateAndFixBranches s).blobs = s.blobs := by
  unfold validateAndFixBranches
  split <;> rfl

/-- Branch validation preserves the vector index. -/
theorem validateAndFix_vdb (s : State) :
    (validateAndFixBranches s).vdb = s.vdb := by
  unfold validateAndFixBranches
  split <;> rfl

/-- Every path of the branch update ends by pointing HEAD at the new
commit. -/
theorem updateBranch_head (s : State) (c : Nat) (r : Bool) :
    (updateBranch s c r).head = some c := by
  unfold updateBranch
  split
  · rfl
  · split <;> rfl

/-- The branch update never touches the commit store. -/
theorem updateBranch_commits (s : State) (c : Nat) (r : Bool) :
    (updateBranch s c r).commits = s.commits := by
  unfold updateBranch
  split
  · rfl
  · split <;> rfl

/-- The branch update never touches the pending list. -/
theorem updateBranch_pending (s : State) (c : Nat) (r : Bool) :
    (updateBranch s c r).pending = s.pending := by
  unfold updateBranch
  split
  · rfl
  · split <;> rfl

/-- The branch update never touches the blob store. -/
theorem updateBranch_blobs (s : State) (c : Nat) (r : Bool) :
    (updateBranch s c r).blobs = s.blobs := by
  unfold updateBranch
  split
  · rfl
  · split <;> rfl

/-- The branch update never touches the vector index. -/
theorem updateBranch_vdb (s : State) (c : Nat) (r : Bool) :
    (updateBranch s c r).vdb = s.vdb := by
  unfold updateBranch
  split
  · rfl
  · split <;> rfl

/-- The pending entry appended by `_add_to_pending_writes`. -/
def mkPendingEntry (s : State) (op : String) (c : Nat)
    (prompt response agentPlan : Option String) (byUser : Bool) (files : List String) :
    PendingWrite :=
  ⟨op, c, prompt, response, agentPlan, byUser, files,
   match s.head with
   | some h => if h ≠ c then some h else none
   | none => none⟩

/-- Appending to the pending list is all `_add_to_pending_writes` does. -/
theorem addToPendingWrites_eq (s : State) (op : String) (c : Nat)
    (prompt response agentPlan : Option String) (byUser : Bool) (files : List String) :
    addToPendingWrites s op c prompt response agentPlan byUser files =
      { s with pending := s.pending ++ [mkPendingEntry s op c prompt response agentPlan byUser files] } := by
  rfl

/-- Adding a pending entry does not move HEAD. -/
theorem addToPendingWrites_head (s : State) (op : String) (c : Nat)
    (prompt response agentPlan : Option String) (byUser : Bool) (files : List String) :
    (addToPendingWrites s op c prompt response agentPlan byUser files).head = s.head := rfl

/-- Adding a pending entry does not touch the commit store. -/
theorem addToPendingWrites_commits (s : State) (op : String) (c : Nat)
    (prompt response agentPlan : Option String) (byUser : Bool) (files : List String) :
    (addToPendingWrites s op c prompt response agentPlan byUser files).commits = s.commits := rfl

/-- Adding a pending entry appends exactly the constructed entry. -/
theorem addToPendingWrites_pending (s : State) (op : String) (c : Nat)
    (prompt response agentPlan : Option String) (byUser : Bool) (files : List String) :
    (addToPendingWrites s op c prompt response agentPlan byUser files).pending =
      s.pending ++ [mkPendingEntry s op c prompt response agentPlan byUser files] := rfl

/-- Adding a pending entry does not touch the vector index. -/
theorem addToPendingWrites_vdb (s : State) (op : String) (c : Nat)
    (prompt response agentPlan : Option String) (byUser : Bool) (files : List String) :
    (addToPendingWrites s op c prompt response agentPlan byUser files).vdb = s.vdb := rfl

/-- When HEAD already points at the new commit, the entry's parent hash is
None (the source compares head_commit with commit_hash after the branch
update moved HEAD). -/
theorem mkPendingEntry_parentHash_none (s : State) (op : String) (c : Nat)
    (prompt response agentPlan : Option String) (byUser : Bool) (files : List String)
    (h : s.head = some c) :
    (mkPendingEntry s op c prompt response agentPlan byUser files).parentHash = none := by
  unfold mkPendingEntry
  rw [h]
  simp

/-- The fold writing fresh blobs for newly tracked files changes no state
component other than the blob store. -/
theorem trackFold_fields (nf : List (String × String)) (s : State) (t : Tree) :
    ((nf.foldl trackStep (s, t)).1.commits = s.commits ∧
     (nf.foldl trackStep (s, t)).1.head = s.head) ∧
    (nf.foldl trackStep (s, t)).1.pending = s.pending ∧
    (nf.foldl trackStep (s, t)).1.vdb = s.vdb ∧
    (nf.foldl trackStep (s, t)).1.branchesCfg = s.branchesCfg := by
  induction nf generalizing s t with
  | nil => exact ⟨⟨rfl, rfl⟩, rfl, rfl, rfl⟩
  | cons e rest ih =>
      simpa [List.foldl_cons, trackStep, writeBlobW] using
        ih { s with blobs := insertBlob s.blobs (blobHash e.2) } (treeInsert t e.1 (writeBlobW s e.2).2)

/-- The partial-snapshot tree builder changes no state component other than
the blob store. -/
theorem buildPartialTree_fields (ws : Workspace) (hb : Tree) (sp : List String)
    (tracked : List String) (s : State) (t : Tree) :
    ((buildPartialTree ws hb sp s t tracked).1.commits = s.commits ∧
     (buildPartialTree ws hb sp s t tracked).1.head = s.head) ∧
    (buildPartialTree ws hb sp s t tracked).1.pending = s.pending ∧
    (buildPartialTree ws hb sp s t tracked).1.vdb = s.vdb ∧
    (buildPartialTree ws hb sp s t tracked).1.branchesCfg = s.branchesCfg := by
  induction tracked generalizing s t with
  | nil => exact ⟨⟨rfl, rfl⟩, rfl, rfl, rfl⟩
  | cons p rest ih =>
      unfold buildPartialTree
      by_cases hp : p ∈ sp
      · simp only [hp, if_pos]
        cases hw : wsGet ws p with
        | some c =>
            simpa [hw, writeBlobW] using
              ih { s with blobs := insertBlob s.blobs (blobHash c) } (treeInsert t p (blobHash c))
        | none =>
            cases hl : lookupTree hb p with
            | none => simp [hw, hl]
            | some b => simpa [hw, hl] using ih s (treeInsert t p b)
      · simp only [hp, if_neg, not_false_iff]
        cases hl : lookupTree hb p with
        | none => simp [hl]
        | some b => simpa [hl] using ih s (treeInsert t p b)

/-- The commit id returned by `_commit` is the next store index. -/
theorem commitOp_id (s : State) (ws : Workspace) (msg : String) (rel : List String) :
    (commitOp s ws msg rel).2 = s.commits.length := by
  unfold commitOp createCommitFromTree
  simp [validateAndFix_commits]

/-- The tree committed by `_commit`: fresh blobs of the files still present
in the workspace. -/
def commitOpTree (ws : Workspace) (rel : List String) : Tree :=
  (rel.filterMap (fun p => (wsGet ws p).map (fun c => (p, c)))).foldl
    (fun t e => treeInsert t e.1 (blobHash e.2)) ([] : Tree)

/-- What `_commit` does to the store: it appends exactly one commit, whose
tree is the workspace rehash of the given files and whose parent is the HEAD
at entry, and leaves pending and the vector index alone; HEAD then points at
the new commit. -/
theorem commitOp_spec (s : State) (ws : Workspace) (msg : String) (rel : List String) :
    (commitOp s ws msg rel).1.commits =
      s.commits ++ [⟨commitOpTree ws rel, s.head, msg⟩] ∧
    (commitOp s ws msg rel).1.head = some (s.commits.length) ∧
    (commitOp s ws msg rel).1.pending = s.pending ∧
    (commitOp s ws msg rel).1.vdb = s.vdb := by
  unfold commitOp createCommitFromTree commitOpTree
  refine ⟨?_, ?_, ?_, ?_⟩
  · simp [updateBranch_commits, validateAndFix_commits, validateAndFix_head]
  · simp [updateBranch_head, validateAndFix_commits]
  · simp [updateBranch_pending, validateAndFix_pending]
  · simp [updateBranch_vdb, validateAndFix_vdb]

/-- A track call that reports no created commit leaves the state untouched
(both early returns precede any store write). -/
theorem track_none_spec (s : State) (ws : Workspace) (ign : String → Bool)
    (fps : List String) (pr rsp : Option String) (bu : Bool) (s1 : State) (st : MemStatus)
    (h : track s ws ign fps pr rsp bu = (s1, none, st)) : s1 = s := by
  unfold track at h
  split at h
  · simp only [Prod.mk.injEq] at h
    exact h.1.symm
  · rcases hs : s.head with _ | hd <;> rw [hs] at h <;> dsimp only at h <;> split at h <;>
      simp only [Prod.mk.injEq] at h
    · exact h.1.symm
    · exact absurd h.2.1 (by simp)
    · exact h.1.symm
    · exact absurd h.2.1 (by simp)

/-- What a commit-creating track call does to the store: the new commit's id
is the next index, its parent is the HEAD at entry, HEAD moves to it, and
exactly one pending entry is appended, whose parent hash is None because the
branch update has already moved HEAD to the new commit. -/
theorem track_some_spec (s : State) (ws : Workspace) (ign : String → Bool)
    (fps : List String) (pr rsp : Option String) (bu : Bool) (s1 : State) (c : Nat)
    (st : MemStatus) (h : track s ws ign fps pr rsp bu = (s1, some c, st)) :
    c = s.commits.length ∧ s1.head = some c ∧
    (∃ com : Commit, com.parent = s.head ∧ s1.commits = s.commits ++ [com]) ∧
    (∃ e : PendingWrite, s1.pending = s.pending ++ [e] ∧ e.parentHash = none ∧
      e.commitHash = c ∧ e.operationType = "track") := by
  unfold track at h
  split at h
  · simp at h
  · rcases hs : s.head with _ | hd <;> rw [hs] at h <;> dsimp only at h <;> split at h
    · simp at h
    · simp only [Prod.mk.injEq] at h
      obtain ⟨hs1, hc, _⟩ := h
      subst hs1
      replace hc := Option.some.inj hc
      subst hc
      obtain ⟨hcm, hhd, hpd, hvd⟩ := commitOp_spec s ws
        (trackMsg (filterNewFiles ign ws (some []) fps) pr rsp bu)
        ((filterNewFiles ign ws (some []) fps).map (fun e => e.1))
      refine ⟨commitOp_id s ws _ _, ?_, ?_, ?_⟩
      · rw [addToPendingWrites_head, hhd, commitOp_id]
      · rw [hs] at hcm
        rw [addToPendingWrites_commits, hcm]
        exact ⟨_, rfl, rfl⟩
      · rw [addToPendingWrites_pending, hpd]
        refine ⟨_, rfl, ?_, rfl, rfl⟩
        apply mkPendingEntry_parentHash_none
        rw [hhd, commitOp_id]
    · simp at h
    · simp only [Prod.mk.injEq] at h
      obtain ⟨hs1, hc, _⟩ := h
      subst hs1
      replace hc := Option.some.inj hc
      subst hc
      obtain ⟨⟨hfc, hfh⟩, hfp, hfv, hfb⟩ :=
        trackFold_fields (filterNewFiles ign ws (some (commitFiles s hd)) fps) s
          ((commitFiles s hd).foldl (inheritStep (commitTree s hd)) ([] : Tree))
      refine ⟨?_, ?_, ?_, ?_⟩
      · simp only [createCommitFromTree]
        rw [hfc]
      · rw [addToPendingWrites_head, updateBranch_head]
      · rw [addToPendingWrites_commits, updateBranch_commits, validateAndFix_commits]
        simp only [createCommitFromTree]
        rw [hfc, hfh, hs]
        exact ⟨_, rfl, rfl⟩
      · rw [addToPendingWrites_pending, updateBranch_pending, validateAndFix_pending]
        simp only [createCommitFromTree]
        rw [hfp]
        refine ⟨_, rfl, ?_, rfl, rfl⟩
        apply mkPendingEntry_parentHash_none
        rw [updateBranch_head]

/-- A snapshot call that reports no created commit leaves the commit store,
HEAD and the pending list untouched (the failure path of the partial tree
builder may have written blobs, nothing else). -/
theorem snapshot_none_spec (s : State) (ws : Workspace) (ign : String → Bool)
    (fpo : Option (List String)) (pr rsp ap : Option String) (bu : Bool) (s1 : State)
    (st : MemStatus) (h : snapshot s ws ign fpo pr rsp ap bu = (s1, none, st)) :
    s1.commits = s.commits ∧ s1.head = s.head ∧ s1.pending = s.pending := by
  unfold snapshot at h
  rcases hs : s.head with _ | hd <;> rw [hs] at h <;> dsimp only at h
  · simp only [if_pos] at h
    simp only [Prod.mk.injEq] at h
    obtain ⟨h1, _⟩ := h
    subst h1
    exact ⟨rfl, hs, rfl⟩
  · split at h
    · simp only [Prod.mk.injEq] at h
      obtain ⟨h1, _⟩ := h
      subst h1
      exact ⟨rfl, hs, rfl⟩
    · rcases fpo with _ | fps <;> dsimp only at h
      · simp at h
      · split at h
        · simp only [Prod.mk.injEq] at h
          obtain ⟨h1, _⟩ := h
          subst h1
          exact ⟨rfl, hs, rfl⟩
        · split at h
          · simp only [Prod.mk.injEq] at h
            obtain ⟨h1, _⟩ := h
            subst h1
            obtain ⟨⟨hfc, hfh⟩, hfp, _, _⟩ :=
              buildPartialTree_fields ws (commitTree s hd)
                (fps.dedup.filter (fun p => p ∈ commitFiles s hd)) (commitFiles s hd) s
                ([] : Tree)
            exact ⟨hfc, hfh.trans hs, hfp⟩
          · simp at h

/-- What a commit-creating snapshot call does to the store: the new commit's
id is the next index, its parent is the HEAD at entry, HEAD moves to it, and
exactly one pending entry with operation type "snap" and parent hash None is
appended. -/
theorem snapshot_some_spec (s : State) (ws : Workspace) (ign : String → Bool)
    (fpo : Option (List String)) (pr rsp ap : Option String) (bu : Bool) (s1 : State)
    (c : Nat) (st : MemStatus) (h : snapshot s ws ign fpo pr rsp ap bu = (s1, some c, st)) :
    c = s.commits.length ∧ s1.head = some c ∧
    (∃ com : Commit, com.parent = s.head ∧ s1.commits = s.commits ++ [com]) ∧
    (∃ e : PendingWrite, s1.pending = s.pending ++ [e] ∧ e.parentHash = none ∧
      e.commitHash = c ∧ e.operationType = "snap") := by
  unfold snapshot at h
  rcases hs : s.head with _ | hd <;> rw [hs] at h <;> dsimp only at h
  · simp at h
  · split at h
    · simp at h
    · rcases fpo with _ | fps <;> dsimp only at h
      · simp only [Prod.mk.injEq] at h
        obtain ⟨hs1, hc, _⟩ := h
        subst hs1
        replace hc := Option.some.inj hc
        subst hc
        obtain ⟨hcm, hhd, hpd, hvd⟩ := commitOp_spec s ws
          ("Create snapshot\n\nPrompt: " ++ optStr pr ++ "\nResponse: " ++ optStr rsp ++
            "\nSource: " ++ srcStr bu)
          (commitFiles s hd)
        refine ⟨commitOp_id s ws _ _, ?_, ?_, ?_⟩
        · rw [addToPendingWrites_head, hhd, commitOp_id]
        · rw [hs] at hcm
          rw [addToPendingWrites_commits, hcm]
          exact ⟨_, rfl, rfl⟩
        · rw [addToPendingWrites_pending, hpd]
          refine ⟨_, rfl, ?_, rfl, rfl⟩
          apply mkPendingEntry_parentHash_none
          rw [hhd, commitOp_id]
      · split at h
        · simp at h
        · split at h
          · simp at h
          · simp only [Prod.mk.injEq] at h
            obtain ⟨hs1, hc, _⟩ := h
            subst hs1
            replace hc := Option.some.inj hc
            subst hc
            obtain ⟨⟨hfc, hfh⟩, hfp, hfv, hfb⟩ :=
              buildPartialTree_fields ws (commitTree s hd)
                (fps.dedup.filter (fun p => p ∈ commitFiles s hd)) (commitFiles s hd) s
                ([] : Tree)
            refine ⟨?_, ?_, ?_, ?_⟩
            · simp only [createCommitFromTree]
              rw [hfc]
            · rw [addToPendingWrites_head, updateBranch_head]
            · rw [addToPendingWrites_commits, updateBranch_commits, validateAndFix_commits]
              simp only [createCommitFromTree]
              rw [hfc, hfh, hs]
              exact ⟨_, rfl, rfl⟩
            · rw [addToPendingWrites_pending, updateBranch_pending, validateAndFix_pending]
              simp only [createCommitFromTree]
              rw [hfp]
              refine ⟨_, rfl, ?_, rfl, rfl⟩
              apply mkPendingEntry_parentHash_none
              rw [updateBranch_head]

/-- The status operation touches only the blob store (the non-read-only
effect claimed in C10 is exactly the blob writes). -/
theorem statusOp_fields (s : State) (ws : Workspace) (ign : String → Bool) :
    (statusOp s ws ign).1.commits = s.commits ∧ (statusOp s ws ign).1.head = s.head ∧
    (statusOp s ws ign).1.branchesCfg = s.branchesCfg ∧
    (statusOp s ws ign).1.pending = s.pending ∧ (statusOp s ws ign).1.vdb = s.vdb :=
  ⟨rfl, rfl, rfl, rfl, rfl⟩

/-- A parent link established in a state survives appending commits. -/
theorem parentOf_mono (s s2 : State) (l : List Commit) (h : s2.commits = s.commits ++ l)
    {c a : Nat} (hp : parentOf s c = some a) : parentOf s2 c = some a := by
  unfold parentOf at hp ⊢
  rw [h]
  cases hg : s.commits.get? c with
  | none => rw [hg] at hp; simp at hp
  | some com =>
      rw [hg] at hp
      rw [List.get?_append (List.get?_eq_some.mp hg).1, hg]
      exact hp

/-- The parent of the single commit just appended to the store. -/
theorem parentOf_appended (s s2 : State) (com : Commit) (h : s2.commits = s.commits ++ [com]) :
    parentOf s2 s.commits.length = com.parent := by
  unfold parentOf
  rw [h, List.get?_concat_length]
  rfl

/-- The parent of a commit that was appended and then followed by more
appended commits. -/
theorem parentOf_appended2 (s s3 : State) (com : Commit) (l : List Commit)
    (h : s3.commits = s.commits ++ [com] ++ l) : parentOf s3 s.commits.length = com.parent := by
  unfold parentOf
  rw [h, List.get?_append (by simp), List.get?_concat_length]
  rfl

/-- Ancestry survives appending commits to the store. -/
theorem ancestor_mono (s s2 : State) (l : List Commit) (h : s2.commits = s.commits ++ l)
    {a b : Nat} (ha : Ancestor s a b) : Ancestor s2 a b :=
  Relation.TransGen.mono (fun _ _ hxy => parentOf_mono s s2 l h hxy) ha

/-- Discarding the per-call pending list does not change the commit store. -/
theorem discardPending_commits (s : State) : (discardPending s).commits = s.commits := rfl

/-- Parent links are independent of the pending list. -/
theorem parentOf_discardPending (s : State) (c : Nat) :
    parentOf (discardPending s) c = parentOf s c := rfl

/-- What the AI phase of one recorder turn guarantees: the manual-commit
field is passed through; the store only grows; a created track commit is the
next index with the entry HEAD as parent; a created AI-snapshot commit comes
after the track commit (or has the entry HEAD as parent when no track
happened). -/
theorem serverSnapAI_spec (s : State) (ws : Workspace) (ign : String → Bool)
    (up orr : String) (ap : List String) (parsed untracked : List String) (mC : Option Nat) :
    (serverSnapAI s ws ign up orr ap parsed untracked mC).manualCommit = mC ∧
    (∃ l, (serverSnapAI s ws ign up orr ap parsed untracked mC).state.commits =
      s.commits ++ l) ∧
    (∀ t, (serverSnapAI s ws ign up orr ap parsed untracked mC).trackCommit = some t →
      t = s.commits.length ∧
      parentOf (serverSnapAI s ws ign up orr ap parsed untracked mC).state t = s.head) ∧
    (∀ p0, (serverSnapAI s ws ign up orr ap parsed untracked mC).snapCommit = some p0 →
      s.commits.length ≤ p0 ∧
      (((serverSnapAI s ws ign up orr ap parsed untracked mC).trackCommit = none ∧
        parentOf (serverSnapAI s ws ign up orr ap parsed untracked mC).state p0 = s.head) ∨
       (∃ t, (serverSnapAI s ws ign up orr ap parsed untracked mC).trackCommit = some t ∧
        t < p0 ∧
        parentOf (serverSnapAI s ws ign up orr ap parsed untracked mC).state p0 = some t))) := by
  unfold serverSnapAI
  dsimp only
  split
  · split
    · refine ⟨rfl, ⟨[], by simp [discardPending]⟩, ?_, ?_⟩ <;> intro x hx <;> simp at hx
    · rcases hsp : snapshot s ws ign (some (parsed.filter (fun f => f ∉ untracked)))
        (some up) (some orr) (planStr ap) false with ⟨s2, oc, st2⟩
      dsimp only
      cases oc with
      | none =>
          obtain ⟨hc, _, _⟩ := snapshot_none_spec _ _ _ _ _ _ _ _ _ _ hsp
          refine ⟨rfl, ⟨[], by simp [discardPending, hc]⟩, ?_, ?_⟩ <;>
            intro x hx <;> simp at hx
      | some c =>
          obtain ⟨hcl, hh, ⟨com, hpar, hcm⟩, _⟩ := snapshot_some_spec _ _ _ _ _ _ _ _ _ _ _ hsp
          refine ⟨rfl, ⟨[com], by simp [discardPending, hcm]⟩, ?_, ?_⟩
          · intro x hx
            simp at hx
          · intro p0 hp0
            simp only [Option.some.injEq] at hp0
            subst hp0
            refine ⟨le_of_eq hcl.symm, Or.inl ⟨rfl, ?_⟩⟩
            rw [parentOf_discardPending, hcl, parentOf_appended s s2 com hcm, hpar]
  · rcases htr : track s ws ign (parsed.filter (fun f => f ∈ untracked))
      (some up) (some orr) false with ⟨s2, oc, st2⟩
    dsimp only
    cases oc with
    | none =>
        have hseq := track_none_spec _ _ _ _ _ _ _ _ _ htr
        subst hseq
        split
        · refine ⟨rfl, ⟨[], by simp [discardPending]⟩, ?_, ?_⟩ <;> intro x hx <;> simp at hx
        · split
          · refine ⟨rfl, ⟨[], by simp [discardPending]⟩, ?_, ?_⟩ <;> intro x hx <;> simp at hx
          · rcases hsp : snapshot s2 ws ign (some (parsed.filter (fun f => f ∉ untracked)))
              (some up) (some orr) (planStr ap) false with ⟨s3, oc2, st3⟩
            dsimp only
            cases oc2 with
            | none =>
                obtain ⟨hc, _, _⟩ := snapshot_none_spec _ _ _ _ _ _ _ _ _ _ hsp
                refine ⟨rfl, ⟨[], by simp [discardPending, hc]⟩, ?_, ?_⟩ <;>
                  intro x hx <;> simp at hx
            | some c =>
                obtain ⟨hcl, hh, ⟨com, hpar, hcm⟩, _⟩ :=
                  snapshot_some_spec _ _ _ _ _ _ _ _ _ _ _ hsp
                refine ⟨rfl, ⟨[com], by simp [discardPending, hcm]⟩, ?_, ?_⟩
                · intro x hx
                  simp at hx
                · intro p0 hp0
                  simp only [Option.some.injEq] at hp0
                  subst hp0
                  refine ⟨le_of_eq hcl.symm, Or.inl ⟨rfl, ?_⟩⟩
                  rw [parentOf_discardPending, hcl, parentOf_appended s2 s3 com hcm, hpar]
    | some c =>
        obtain ⟨hcl, hh, ⟨com, hpar, hcm⟩, _⟩ := track_some_spec _ _ _ _ _ _ _ _ _ _ htr
        split
        · refine ⟨rfl, ⟨[com], by simp [discardPending, hcm]⟩, ?_, ?_⟩
          · intro x hx
            simp only [Option.some.injEq] at hx
            subst hx
            refine ⟨hcl, ?_⟩
            rw [parentOf_discardPending, hcl, parentOf_appended s s2 com hcm, hpar]
          · intro x hx
            simp at hx
        · split
          · refine ⟨rfl, ⟨[com], by simp [discardPending, hcm]⟩, ?_, ?_⟩
            · intro x hx
              simp only [Option.some.injEq] at hx
              subst hx
              refine ⟨hcl, ?_⟩
              rw [parentOf_discardPending, hcl, parentOf_appended s s2 com hcm, hpar]
            · intro x hx
              simp at hx
          · rcases hsp : snapshot s2 ws ign (some (parsed.filter (fun f => f ∉ untracked)))
              (some up) (some orr) (planStr ap) false with ⟨s3, oc2, st3⟩
            dsimp only
            cases oc2 with
            | none =>
                obtain ⟨hc3, hh3, _⟩ := snapshot_none_spec _ _ _ _ _ _ _ _ _ _ hsp
                refine ⟨rfl, ⟨[com], by simp [discardPending, hc3, hcm]⟩, ?_, ?_⟩
                · intro x hx
                  simp only [Option.some.injEq] at hx
                  subst hx
                  refine ⟨hcl, ?_⟩
                  have : parentOf s3 s.commits.length = com.parent := by
                    unfold parentOf
                    rw [hc3, hcm, List.get?_concat_length]
                    rfl
                  rw [parentOf_discardPending, hcl, this, hpar]
                · intro x hx
                  simp at hx
            | some c2 =>
                obtain ⟨hcl2, hh2, ⟨com2, hpar2, hcm2⟩, _⟩ :=
                  snapshot_some_spec _ _ _ _ _ _ _ _ _ _ _ hsp
                have hext : s3.commits = s.commits ++ [com] ++ [com2] := by
                  rw [hcm2, hcm]
                refine ⟨rfl, ⟨[com] ++ [com2], by simp [discardPending, hext]⟩, ?_, ?_⟩
                · intro x hx
                  simp only [Option.some.injEq] at hx
                  subst hx
                  refine ⟨hcl, ?_⟩
                  rw [parentOf_discardPending, hcl, parentOf_appended2 s s3 com [com2] hext,
                    hpar]
                · intro p0 hp0
                  simp only [Option.some.injEq] at hp0
                  subst hp0
                  have hlen : s2.commits.length = s.commits.length + 1 := by
                    rw [hcm]
                    simp
                  refine ⟨?_, Or.inr ⟨c, rfl, ?_, ?_⟩⟩
                  · rw [hcl2, hlen]
                    exact Nat.le_succ _
                  · rw [hcl2, hlen, hcl]
                    exact Nat.lt_succ_self _
                  · rw [parentOf_discardPending, hcl2,
                      parentOf_appended s2 s3 com2 hcm2, hpar2, hh]

/-- Ordering facts for the AI phase, given that a manual commit (when one
was made) is the latest commit of the entry state with HEAD on it. -/
theorem serverSnapAI_ordering (sA : State) (wsA : Workspace) (ign : String → Bool)
    (up orr : String) (ap : List String) (parsed untracked : List String) (mC : Option Nat)
    (hman : ∀ m, mC = some m → m < sA.commits.length ∧ sA.head = some m) :
    (∀ m t, (serverSnapAI sA wsA ign up orr ap parsed untracked mC).manualCommit = some m →
      (serverSnapAI sA wsA ign up orr ap parsed untracked mC).trackCommit = some t →
      m < t ∧ Ancestor (serverSnapAI sA wsA ign up orr ap parsed untracked mC).state m t) ∧
    (∀ m p0, (serverSnapAI sA wsA ign up orr ap parsed untracked mC).manualCommit = some m →
      (serverSnapAI sA wsA ign up orr ap parsed untracked mC).snapCommit = some p0 →
      m < p0 ∧ Ancestor (serverSnapAI sA wsA ign up orr ap parsed untracked mC).state m p0) ∧
    (∀ t p0, (serverSnapAI sA wsA ign up orr ap parsed untracked mC).trackCommit = some t →
      (serverSnapAI sA wsA ign up orr ap parsed untracked mC).snapCommit = some p0 →
      t < p0 ∧ Ancestor (serverSnapAI sA wsA ign up orr ap parsed untracked mC).state t p0) := by
  obtain ⟨hmc, ⟨l2, hex⟩, htr, hsn⟩ :=
    serverSnapAI_spec sA wsA ign up orr ap parsed untracked mC
  refine ⟨?_, ?_, ?_⟩
  · intro m t hm ht
    rw [hmc] at hm
    obtain ⟨hmlt, hmh⟩ := hman m hm
    obtain ⟨hteq, hpart⟩ := htr t ht
    subst hteq
    exact ⟨hmlt, Relation.TransGen.single (by rw [hpart, hmh])⟩
  · intro m p0 hm hp
    rw [hmc] at hm
    obtain ⟨hmlt, hmh⟩ := hman m hm
    obtain ⟨hge, hcase⟩ := hsn p0 hp
    refine ⟨Nat.lt_of_lt_of_le hmlt hge, ?_⟩
    rcases hcase with ⟨_, hpar⟩ | ⟨t2, ht2, hlt, hpar⟩
    · exact Relation.TransGen.single (by rw [hpar, hmh])
    · obtain ⟨_, hpart⟩ := htr t2 ht2
      exact Relation.TransGen.head (by rw [hpart, hmh]) (Relation.TransGen.single hpar)
  · intro t p0 ht hp
    obtain ⟨_, hcase⟩ := hsn p0 hp
    rcases hcase with ⟨hnone, _⟩ | ⟨t2, ht2, hlt, hpar⟩
    · rw [ht] at hnone
      simp at hnone
    · rw [ht] at ht2
      replace ht2 := Option.some.inj ht2
      subst ht2
      exact ⟨hlt, Relation.TransGen.single hpar⟩

/-- C4: Commit ordering within one recorder turn: for any single call to the
recorder's record operation (MemMCPTools.snap), the manual-edit snapshot
commit (if any) is created strictly before the track commit (if any), which
is created strictly before the AI partial-snapshot commit (if any); in a
turn mixing manual and AI edits the manual commit is an ancestor of the AI
commits. -/
theorem record_commit_ordering (s : State) (ws : Workspace) (ign : String → Bool)
    (up orr : String) (ap : List String) (fc : String) :
    (∀ m t, (serverSnap s ws ign up orr ap fc).manualCommit = some m →
      (serverSnap s ws ign up orr ap fc).trackCommit = some t →
      m < t ∧ Ancestor (serverSnap s ws ign up orr ap fc).state m t) ∧
    (∀ m p0, (serverSnap s ws ign up orr ap fc).manualCommit = some m →
      (serverSnap s ws ign up orr ap fc).snapCommit = some p0 →
      m < p0 ∧ Ancestor (serverSnap s ws ign up orr ap fc).state m p0) ∧
    (∀ t p0, (serverSnap s ws ign up orr ap fc).trackCommit = some t →
      (serverSnap s ws ign up orr ap fc).snapCommit = some p0 →
      t < p0 ∧ Ancestor (serverSnap s ws ign up orr ap fc).state t p0) := by
  unfold serverSnap
  dsimp only
  split
  · exact ⟨fun m t hm => by simp at hm, fun m p0 hm => by simp at hm,
      fun t p0 ht => by simp at ht⟩
  · split <;>
      (split
       · apply serverSnapAI_ordering
         intro m hm
         simp at hm
       · rcases hms : snapshot _ _ _ _ _ _ _ _ with ⟨s3, mc, st3⟩
         dsimp only
         split
         · exact ⟨fun m t _ ht => by simp at ht, fun m p0 _ hp => by simp at hp,
             fun t p0 ht => by simp at ht⟩
         · apply serverSnapAI_ordering
           intro m hm
           subst hm
           obtain ⟨hm0, hh3, ⟨com, hparc, hcm3⟩, _⟩ :=
             snapshot_some_spec _ _ _ _ _ _ _ _ _ _ _ hms
           refine ⟨?_, hh3⟩
           rw [hcm3, hm0]
           simp)

/-- An ignore function matching no path (an empty .memignore rule set). -/
def noIgn : String → Bool := fun _ => false

/-- A store holding one commit that tracks a.txt and b.txt. -/
def c4Base : Commit := ⟨[("a", "A"), ("b", "B")], none, "Track files\n\n"⟩

/-- An initialized project whose HEAD tracks a.txt and b.txt. -/
def c4State : State :=
  ⟨[c4Base], ["A", "B"], some 0,
   some ⟨some BranchName.main, [(BranchName.main, some 0)]⟩, [], [], true, true⟩

/-- The workspace of the mixed turn: the user edited a, the agent edited b
and created n. -/
def c4Ws : Workspace := [("a", "A2"), ("b", "B2"), ("n", "N")]

/-- Witness for C4: in a concrete turn that mixes a manual edit (a), a new
AI file (n) and an AI-modified file (b), the manual commit 1 precedes and is
an ancestor of the track commit 2 and of the AI snapshot commit 3. -/
theorem record_commit_ordering_witness :
    (1 < 2 ∧ Ancestor (serverSnap c4State c4Ws noIgn "p" "r" [] "n,b").state 1 2) ∧
    (1 < 3 ∧ Ancestor (serverSnap c4State c4Ws noIgn "p" "r" [] "n,b").state 1 3) ∧
    (2 < 3 ∧ Ancestor (serverSnap c4State c4Ws noIgn "p" "r" [] "n,b").state 2 3) := by
  have h := record_commit_ordering c4State c4Ws noIgn "p" "r" [] "n,b"
  exact ⟨h.1 1 2 (by decide) (by decide), h.2.1 1 3 (by decide) (by decide),
    h.2.2 2 3 (by decide) (by decide)⟩


/-- Overwriting dict assignment, lookup at the written key (map branch). -/
theorem find?_map_overwrite (xs : Tree) (k v : String) :
    List.find? (fun e => decide (e.1 = k)) (xs.map (fun e => if e.1 = k then (k, v) else e)) =
      if xs.any (fun e => decide (e.1 = k)) then some (k, v) else none := by
  induction xs with
  | nil => simp
  | cons x xs ih =>
      by_cases hx : x.1 = k
      · simp [hx]
      · simp only [List.map_cons, if_neg hx, List.any_cons]
        rw [List.find?_cons_of_neg _ (by simpa using hx), ih]
        by_cases ha : (xs.any fun e => decide (e.1 = k)) = true <;> simp [ha, hx]

/-- Overwriting dict assignment leaves other keys alone (map branch). -/
theorem find?_map_overwrite_other (xs : Tree) (k v p : String) (hne : k ≠ p) :
    List.find? (fun e => decide (e.1 = p)) (xs.map (fun e => if e.1 = k then (k, v) else e)) =
      List.find? (fun e => decide (e.1 = p)) xs := by
  induction xs with
  | nil => simp
  | cons x xs ih =>
      by_cases hx : x.1 = k
      · simp only [List.map_cons, if_pos hx]
        rw [List.find?_cons_of_neg _ (by simpa using hne),
          List.find?_cons_of_neg _ (by rw [hx]; simpa using hne)]
        exact ih
      · simp only [List.map_cons, if_neg hx]
        by_cases hp : x.1 = p
        · rw [List.find?_cons_of_pos _ (by simpa using hp),
            List.find?_cons_of_pos _ (by simpa using hp)]
        · rw [List.find?_cons_of_neg _ (by simpa using hp),
            List.find?_cons_of_neg _ (by simpa using hp)]
          exact ih

/-- Looking up the key just written by a dict assignment yields its value. -/
theorem lookupTree_treeInsert_self (t : Tree) (k v : String) :
    lookupTree (treeInsert t k v) k = some v := by
  unfold treeInsert lookupTree
  split
  case isTrue hany => rw [find?_map_overwrite]; simp [hany]
  case isFalse hany =>
    have hnone : List.find? (fun e => decide (e.1 = k)) t = none := by
      rw [List.find?_eq_none]
      intro x hx
      simp only [decide_eq_true_eq]
      intro hc
      exact hany (List.any_eq_true.mpr ⟨x, hx, by simp [hc]⟩)
    rw [List.find?_append, hnone]
    simp

/-- A dict assignment at a different key does not change a lookup. -/
theorem lookupTree_treeInsert_other (t : Tree) (k v p : String) (hne : k ≠ p) :
    lookupTree (treeInsert t k v) p = lookupTree t p := by
  unfold treeInsert lookupTree
  split
  · rw [find?_map_overwrite_other _ _ _ _ hne]
  · rw [List.find?_append]
    have : List.find? (fun e => decide (e.1 = p)) [(k, v)] = none := by
      simp [hne]
    rw [this]
    simp

/-- A successful lookup means the key is among the tree's names. -/
theorem lookupTree_mem_keys (t : Tree) (p b : String) (h : lookupTree t p = some b) :
    p ∈ t.map (fun e => e.1) := by
  unfold lookupTree at h
  cases hf : t.find? (fun e => e.1 = p) with
  | none => rw [hf] at h; simp at h
  | some e =>
      have hmem := List.mem_of_find?_eq_some hf
      have hkey : e.1 = p := by simpa using List.find?_some hf
      exact hkey ▸ List.mem_map_of_mem _ hmem

/-- The HEAD-inheritance fold does not touch paths outside its key list. -/
theorem lookup_inheritFold_not_mem (hb : Tree) (keys : List String) (p : String)
    (hnp : p ∉ keys) (t0 : Tree) :
    lookupTree (keys.foldl (inheritStep hb) t0) p = lookupTree t0 p := by
  induction keys generalizing t0 with
  | nil => rfl
  | cons q rest ih =>
      have hq : q ≠ p := fun hqp => hnp (hqp ▸ List.mem_cons_self q rest)
      have hrest : p ∉ rest := fun hr => hnp (List.mem_cons_of_mem q hr)
      simp only [List.foldl_cons]
      rw [ih hrest]
      unfold inheritStep
      cases hbq : lookupTree hb q with
      | none => rfl
      | some b => exact lookupTree_treeInsert_other t0 q b p hq

/-- The HEAD-inheritance fold binds every listed path with a HEAD blob to
that blob (when the key list has no duplicates). -/
theorem lookup_inheritFold_mem (hb : Tree) (keys : List String) (p b : String)
    (hnd : keys.Nodup) (hp : p ∈ keys) (hbp : lookupTree hb p = some b) (t0 : Tree) :
    lookupTree (keys.foldl (inheritStep hb) t0) p = some b := by
  induction keys generalizing t0 with
  | nil => cases hp
  | cons q rest ih =>
      simp only [List.foldl_cons]
      rcases List.mem_cons.mp hp with hpq | hpr
      · subst hpq
        have hnr : p ∉ rest := (List.nodup_cons.mp hnd).1
        rw [lookup_inheritFold_not_mem hb rest p hnr]
        unfold inheritStep
        rw [hbp]
        exact lookupTree_treeInsert_self t0 p b
      · exact ih (List.nodup_cons.mp hnd).2 hpr _

/-- The fresh-blob fold for newly tracked files does not touch paths outside
its file list. -/
theorem lookup_trackFold_not_mem (nf : List (String × String)) (p : String)
    (hnp : p ∉ nf.map (fun e => e.1)) (sx : State) (t0 : Tree) :
    lookupTree ((nf.foldl trackStep (sx, t0)).2) p = lookupTree t0 p := by
  induction nf generalizing sx t0 with
  | nil => rfl
  | cons e rest ih =>
      have he : e.1 ≠ p := by
        intro hc
        exact hnp (by simp [hc])
      have hrest : p ∉ rest.map (fun e => e.1) := by
        intro hc
        exact hnp (by simp at hc ⊢; exact Or.inr hc)
      simp only [List.foldl_cons]
      rw [show trackStep (sx, t0) e =
          ((writeBlobW sx e.2).1, treeInsert t0 e.1 (writeBlobW sx e.2).2) from rfl]
      rw [ih hrest]
      exact lookupTree_treeInsert_other _ _ _ _ he

/-- Every file surviving `_filter_new_files` with a tracked list was not
tracked. -/
theorem filterNewFiles_not_tracked (ign : String → Bool) (ws : Workspace)
    (tr : List String) (fps : List String) (q : String) (cq : String)
    (h : (q, cq) ∈ filterNewFiles ign ws (some tr) fps) : q ∉ tr := by
  unfold filterNewFiles at h
  rw [List.mem_filterMap] at h
  obtain ⟨p, _, hp⟩ := h
  cases hw : wsGet ws p with
  | none => rw [hw] at hp; simp at hp
  | some cp =>
      rw [hw] at hp
      dsimp only at hp
      split at hp
      · simp at hp
      · rename_i hsf
        simp only [Option.some.injEq, Prod.mk.injEq] at hp
        obtain ⟨hpq, _⟩ := hp
        subst hpq
        unfold shouldFilter at hsf
        intro hmem
        exact hsf (by simp [hmem])

/-- The partial-tree builder does not touch paths outside the tracked list it
walks (whenever it succeeds). -/
theorem buildPartialTree_lookup_not_mem (ws : Workspace) (hb : Tree) (sp : List String)
    (keys : List String) (p : String) (hnp : p ∉ keys) (s : State) (t0 : Tree) (tfin : Tree)
    (h : (buildPartialTree ws hb sp s t0 keys).2 = some tfin) :
    lookupTree tfin p = lookupTree t0 p := by
  induction keys generalizing s t0 with
  | nil =>
      unfold buildPartialTree at h
      simp only [Option.some.injEq] at h
      subst h
      rfl
  | cons q rest ih =>
      have hq : q ≠ p := fun hqp => hnp (hqp ▸ List.mem_cons_self q rest)
      have hrest : p ∉ rest := fun hr => hnp (List.mem_cons_of_mem q hr)
      unfold buildPartialTree at h
      by_cases hqs : q ∈ sp
      · simp only [if_pos hqs] at h
        cases hw : wsGet ws q with
        | some cq =>
            rw [hw] at h
            dsimp only at h
            rw [ih hrest _ _ h, lookupTree_treeInsert_other _ _ _ _ hq]
        | none =>
            rw [hw] at h
            dsimp only at h
            cases hl : lookupTree hb q with
            | none => rw [hl] at h; simp at h
            | some b =>
                rw [hl] at h
                dsimp only at h
                rw [ih hrest _ _ h, lookupTree_treeInsert_other _ _ _ _ hq]
      · simp only [if_neg hqs] at h
        cases hl : lookupTree hb q with
        | none => rw [hl] at h; simp at h
        | some b =>
            rw [hl] at h
            dsimp only at h
            rw [ih hrest _ _ h, lookupTree_treeInsert_other _ _ _ _ hq]

/-- In a successful partial-tree build over duplicate-free tracked paths, a
tracked path outside the specified set keeps its HEAD blob. -/
theorem buildPartialTree_lookup_inherited (ws : Workspace) (hb : Tree) (sp : List String)
    (keys : List String) (p b : String) (hnd : keys.Nodup) (hp : p ∈ keys) (hps : p ∉ sp)
    (hbp : lookupTree hb p = some b) (s : State) (t0 : Tree) (tfin : Tree)
    (h : (buildPartialTree ws hb sp s t0 keys).2 = some tfin) :
    lookupTree tfin p = some b := by
  induction keys generalizing s t0 with
  | nil => cases hp
  | cons q rest ih =>
      rcases List.mem_cons.mp hp with hpq | hpr
      · subst hpq
        have hnr : p ∉ rest := (List.nodup_cons.mp hnd).1
        unfold buildPartialTree at h
        rw [if_neg hps, hbp] at h
        dsimp only at h
        rw [buildPartialTree_lookup_not_mem ws hb sp rest p hnr _ _ _ h]
        exact lookupTree_treeInsert_self t0 p b
      · unfold buildPartialTree at h
        by_cases hqs : q ∈ sp
        · simp only [if_pos hqs] at h
          cases hw : wsGet ws q with
          | some cq =>
              rw [hw] at h
              dsimp only at h
              exact ih (List.nodup_cons.mp hnd).2 hpr _ _ h
          | none =>
              rw [hw] at h
              dsimp only at h
              cases hl : lookupTree hb q with
              | none => rw [hl] at h; simp at h
              | some bq =>
                  rw [hl] at h
                  dsimp only at h
                  exact ih (List.nodup_cons.mp hnd).2 hpr _ _ h
        · simp only [if_neg hqs] at h
          cases hl : lookupTree hb q with
          | none => rw [hl] at h; simp at h
          | some bq =>
              rw [hl] at h
              dsimp only at h
              exact ih (List.nodup_cons.mp hnd).2 hpr _ _ h

/-- The tree of the commit a create-validate-update-enqueue chain lands at
its own commit id: exactly the tree handed to the commit writer. -/
theorem commitTree_after_commit (sb : State) (t : Tree) (msg op : String)
    (pr rsp ap : Option String) (bu : Bool) (fs : List String) :
    commitTree (addToPendingWrites (updateBranch (validateAndFixBranches
        (createCommitFromTree sb t msg).1) (createCommitFromTree sb t msg).2 false)
      op (createCommitFromTree sb t msg).2 pr rsp ap bu fs)
      (createCommitFromTree sb t msg).2 = t := by
  unfold commitTree
  rw [addToPendingWrites_commits, updateBranch_commits, validateAndFix_commits]
  simp only [createCommitFromTree]
  rw [List.get?_concat_length]
  rfl

/-- C1: No accidental capture of manual edits.  After track(F) on HEAD H,
every path tracked at H keeps H's blob id in the new commit (the workspace
is not rehashed for already-tracked files); and after a partial snapshot
with file_paths=F on HEAD H, every path tracked at H that is not in F keeps
H's blob id, even if it was modified in the workspace. -/
theorem no_accidental_capture :
    (∀ (s : State) (ws : Workspace) (ign : String → Bool) (fps : List String)
       (pr rsp : Option String) (bu : Bool) (s1 : State) (c : Nat) (st : MemStatus)
       (h0 : Nat) (p b : String),
       s.head = some h0 →
       ((commitTree s h0).map (fun e => e.1)).Nodup →
       lookupTree (commitTree s h0) p = some b →
       track s ws ign fps pr rsp bu = (s1, some c, st) →
       lookupTree (commitTree s1 c) p = some b) ∧
    (∀ (s : State) (ws : Workspace) (ign : String → Bool) (fps : List String)
       (pr rsp ap : Option String) (bu : Bool) (s1 : State) (c : Nat) (st : MemStatus)
       (h0 : Nat) (p b : String),
       s.head = some h0 →
       ((commitTree s h0).map (fun e => e.1)).Nodup →
       lookupTree (commitTree s h0) p = some b →
       p ∉ fps →
       snapshot s ws ign (some fps) pr rsp ap bu = (s1, some c, st) →
       lookupTree (commitTree s1 c) p = some b) := by
  constructor
  · intro s ws ign fps pr rsp bu s1 c st h0 p b hhead hnd hbp htr
    have hpk : p ∈ (commitTree s h0).map (fun e => e.1) := lookupTree_mem_keys _ _ _ hbp
    unfold track at htr
    rw [hhead] at htr
    dsimp only at htr
    split at htr
    · simp at htr
    · split at htr
      · simp at htr
      · simp only [Prod.mk.injEq] at htr
        obtain ⟨hs1, hc, _⟩ := htr
        subst hs1
        replace hc := Option.some.inj hc
        subst hc
        rw [commitTree_after_commit]
        have hnp : p ∉ (filterNewFiles ign ws (some (commitFiles s h0)) fps).map
            (fun e => e.1) := by
          intro hcm
          rw [List.mem_map] at hcm
          obtain ⟨e, hem, hek⟩ := hcm
          have hnt := filterNewFiles_not_tracked ign ws (commitFiles s h0) fps e.1 e.2
            (by rw [Prod.mk.eta]; exact hem)
          exact hnt (hek ▸ hpk)
        rw [lookup_trackFold_not_mem _ _ hnp]
        exact lookup_inheritFold_mem _ _ _ _ hnd hpk hbp _
  · intro s ws ign fps pr rsp ap bu s1 c st h0 p b hhead hnd hbp hpf htr
    have hpk : p ∈ (commitTree s h0).map (fun e => e.1) := lookupTree_mem_keys _ _ _ hbp
    unfold snapshot at htr
    rw [hhead] at htr
    dsimp only at htr
    split at htr
    · simp at htr
    · split at htr
      · simp at htr
      · split at htr
        · simp at htr
        · rename_i t heq
          simp only [Prod.mk.injEq] at htr
          obtain ⟨hs1, hc, _⟩ := htr
          subst hs1
          replace hc := Option.some.inj hc
          subst hc
          rw [commitTree_after_commit]
          have hps2 : p ∉ fps.dedup.filter (fun q => q ∈ commitFiles s h0) := by
            intro hcm
            exact hpf (List.mem_dedup.mp (List.mem_filter.mp hcm).1)
          exact buildPartialTree_lookup_inherited ws (commitTree s h0) _ _ p b hnd hpk hps2
            hbp s ([] : Tree) t heq

/-- A store with one commit tracking a.txt only. -/
def c1State : State :=
  ⟨[⟨[("a", "A")], none, "Track files\n\n"⟩], ["A"], some 0,
   some ⟨some BranchName.main, [(BranchName.main, some 0)]⟩, [], [], true, true⟩

/-- Its workspace: a.txt manually edited, n.txt new. -/
def c1Ws : Workspace := [("a", "A2"), ("n", "N")]

/-- A store with one commit tracking a.txt and b.txt. -/
def c1bState : State :=
  ⟨[⟨[("a", "A"), ("b", "B")], none, "Track files\n\n"⟩], ["A", "B"], some 0,
   some ⟨some BranchName.main, [(BranchName.main, some 0)]⟩, [], [], true, true⟩

/-- Its workspace: both files modified; only b is in the snapshot set. -/
def c1bWs : Workspace := [("a", "A2"), ("b", "B2")]

/-- Witness for C1: tracking the new file n keeps the HEAD blob "A" of the
manually edited a.txt, and a partial snapshot of b alone keeps the HEAD blob
"A" of the modified but unspecified a.txt. -/
theorem no_accidental_capture_witness :
    lookupTree (commitTree
      (track c1State c1Ws noIgn ["n"] (some "p") (some "r") false).1 1) "a" = some "A" ∧
    lookupTree (commitTree
      (snapshot c1bState c1bWs noIgn (some ["b"]) (some "p") (some "r") (some "pl")
        false).1 1) "a" = some "A" := by
  constructor
  · exact no_accidental_capture.1 c1State c1Ws noIgn ["n"] (some "p") (some "r") false
      (track c1State c1Ws noIgn ["n"] (some "p") (some "r") false).1 1
      (track c1State c1Ws noIgn ["n"] (some "p") (some "r") false).2.2 0 "a" "A"
      (by decide) (by decide) (by decide) (by decide)
  · exact no_accidental_capture.2 c1bState c1bWs noIgn ["b"] (some "p") (some "r")
      (some "pl") false
      (snapshot c1bState c1bWs noIgn (some ["b"]) (some "p") (some "r") (some "pl") false).1 1
      (snapshot c1bState c1bWs noIgn (some ["b"]) (some "p") (some "r") (some "pl")
        false).2.2 0 "a" "A"
      (by decide) (by decide) (by decide) (by decide) (by decide)

/-- The develop-branch search loop, given enough fuel to reach a free index,
returns the first free index at or above its start. -/
theorem nextDevelopAux_spec (bs : List (BranchName × Option Nat)) (fuel i : Nat)
    (hlow : ∀ j, j < i → bs.any (fun e => e.1 = BranchName.develop j) = true)
    (hex : ∃ k, i ≤ k ∧ k < i + fuel ∧ bs.any (fun e => e.1 = BranchName.develop k) = false) :
    bs.any (fun e => e.1 = BranchName.develop (nextDevelopAux bs fuel i)) = false ∧
    ∀ j, j < nextDevelopAux bs fuel i → bs.any (fun e => e.1 = BranchName.develop j) = true := by
  induction fuel generalizing i with
  | zero =>
      obtain ⟨k, hk1, hk2, _⟩ := hex
      omega
  | succ fuel ih =>
      unfold nextDevelopAux
      by_cases hi : bs.any (fun e => e.1 = BranchName.develop i) = true
      · rw [if_pos hi]
        apply ih
        · intro j hj
          rcases Nat.lt_succ_iff_lt_or_eq.mp hj with h | h
          · exact hlow j h
          · subst h
            exact hi
        · obtain ⟨k, hk1, hk2, hk3⟩ := hex
          refine ⟨k, ?_, by omega, hk3⟩
          rcases Nat.eq_or_lt_of_le hk1 with h | h
          · subst h
            rw [hk3] at hi
            cases hi
          · omega
      · rw [if_neg hi]
        refine ⟨?_, hlow⟩
        cases hb : bs.any (fun e => e.1 = BranchName.develop i) with
        | false => rfl
        | true => exact absurd hb hi

/-- Pigeonhole: among the first length+1 develop indices, at least one is
not a branch name yet. -/
theorem nextDevelop_exists (bs : List (BranchName × Option Nat)) :
    ∃ k, 0 ≤ k ∧ k < 0 + (bs.length + 1) ∧
      bs.any (fun e => e.1 = BranchName.develop k) = false := by
  by_contra hc
  push_neg at hc
  have hmem : ∀ k, k < bs.length + 1 → BranchName.develop k ∈ bs.map (fun e => e.1) := by
    intro k hk
    have hne := hc k (Nat.zero_le k) (by omega)
    have hany : bs.any (fun e => e.1 = BranchName.develop k) = true := by
      cases hb : bs.any (fun e => e.1 = BranchName.develop k)
      · exact absurd hb hne
      · rfl
    rw [List.any_eq_true] at hany
    obtain ⟨e, he, hk2⟩ := hany
    simp only [decide_eq_true_eq] at hk2
    exact hk2 ▸ List.mem_map_of_mem _ he
  have hinj : Function.Injective BranchName.develop := fun a b h => by injection h
  have hsub : (Finset.range (bs.length + 1)).image BranchName.develop ⊆
      (bs.map (fun e => e.1)).toFinset := by
    intro x hx
    rw [Finset.mem_image] at hx
    obtain ⟨k, hk, hkx⟩ := hx
    rw [List.mem_toFinset]
    exact hkx ▸ hmem k (Finset.mem_range.mp hk)
  have hcard := Finset.card_le_card hsub
  rw [Finset.card_image_of_injective _ hinj, Finset.card_range] at hcard
  have hle := List.toFinset_card_le (bs.map (fun e => e.1))
  rw [List.length_map] at hle
  omega

/-- C6: Branch auto-allocation: when a commit C lands while the catalog's
current branch is null, no existing branch tip equals HEAD, and main exists
with a non-empty tip, the branch-advance algorithm creates a fresh branch
develop/<N> with the smallest unused N, sets its tip to C, makes it current,
and leaves every other branch entry (including main) unchanged; HEAD moves
to C. -/
theorem branch_auto_allocation (s : State) (C H : Nat)
    (bs : List (BranchName × Option Nat))
    (hcfg : s.branchesCfg = some ⟨none, bs⟩)
    (hH : s.head = some H)
    (hnm : ∀ e ∈ bs, e.2 ≠ some H)
    (hmain : ∃ tmain, lookupBr bs BranchName.main = some (some tmain)) :
    (updateBranch s C false).branchesCfg =
      some ⟨some (BranchName.develop (nextDevelop bs)),
        bs ++ [(BranchName.develop (nextDevelop bs), some C)]⟩ ∧
    (updateBranch s C false).head = some C ∧
    bs.any (fun e => e.1 = BranchName.develop (nextDevelop bs)) = false ∧
    (∀ m, m < nextDevelop bs → bs.any (fun e => e.1 = BranchName.develop m) = true) := by
  obtain ⟨hfree, hsmall⟩ := nextDevelopAux_spec bs (bs.length + 1) 0
    (fun j hj => absurd hj (Nat.not_lt_zero j)) (nextDevelop_exists bs)
  refine ⟨?_, updateBranch_head s C false, hfree, hsmall⟩
  unfold updateBranch
  rw [hcfg]
  dsimp only
  unfold updateBranch.updateBranchScan
  rw [hH]
  dsimp only
  rw [List.find?_eq_none.mpr (fun e he => by simpa using hnm e he)]
  obtain ⟨tm, hm⟩ := hmain
  rw [hm]
  rfl

/-- A catalog detached after a jump back to commit 0: current is null, main
still points at commit 2. -/
def c6State : State :=
  ⟨[⟨[("x", "X")], none, "Track files\n\n"⟩,
    ⟨[("x", "X1")], some 0, "Create snapshot\n\n"⟩,
    ⟨[("x", "X2")], some 1, "Create snapshot\n\n"⟩], ["X", "X1", "X2"], some 0,
   some ⟨none, [(BranchName.main, some 2)]⟩, [], [], true, true⟩

/-- Witness for C6: landing commit 3 on the detached catalog allocates
develop/0 with tip 3, makes it current, keeps main at 2, and moves HEAD. -/
theorem branch_auto_allocation_witness :
    (updateBranch c6State 3 false).branchesCfg =
      some ⟨some (BranchName.develop 0),
        [(BranchName.main, some 2), (BranchName.develop 0, some 3)]⟩ ∧
    (updateBranch c6State 3 false).head = some 3 := by
  have h := branch_auto_allocation c6State 3 0 [(BranchName.main, some 2)]
    (by decide) (by decide) (by decide) ⟨2, by decide⟩
  exact ⟨h.1, h.2.1⟩

set_option maxRecDepth 100000

set_option maxHeartbeats 4000000

/-- C7 (code bug): chunk_text is not total.  The loop guard written
`if start <= chunks[-1] if chunks else 0:` compares the int start with the
str chunks[-1] whenever a chunk has been collected, so every text longer
than chunk_size whose first window is not all whitespace raises TypeError;
this holds in particular at the production chunk size 768 used by VectorDB.
Texts no longer than chunk_size return normally as a single chunk. -/
theorem chunk_text_typeerror_crash :
    chunkText 5 2 "aaaaaa" =
      Except.error "TypeError: unsupported comparison between int and str" ∧
    chunkText 768 100 (String.mk (List.replicate 769 'a')) =
      Except.error "TypeError: unsupported comparison between int and str" ∧
    chunkText 5 2 "abc" = Except.ok ["abc"] :=
  ⟨rfl, rfl, rfl⟩

set_option maxHeartbeats 400000

/-- A blob is in the store after its own insertion. -/
theorem mem_insertBlob_self (bl : List String) (b : String) : b ∈ insertBlob bl b := by
  unfold insertBlob
  split
  · assumption
  · simp

/-- Blob insertion keeps existing blobs. -/
theorem mem_insertBlob_mono (bl : List String) (b x : String) (hx : x ∈ bl) :
    x ∈ insertBlob bl b := by
  unfold insertBlob
  split
  · exact hx
  · exact List.mem_append_left _ hx

/-- A blob already in the store survives the whole status blob-writing
fold. -/
theorem mem_blobFold_mono (l : List (String × String)) (bl : List String) (x : String)
    (hx : x ∈ bl) : x ∈ l.foldl (fun b e => insertBlob b (blobHash e.2)) bl := by
  induction l generalizing bl with
  | nil => exact hx
  | cons e rest ih => exact ih _ (mem_insertBlob_mono _ _ _ hx)

/-- Every scanned file's blob is in the store after the status fold. -/
theorem mem_blobFold (l : List (String × String)) (bl : List String) (e : String × String)
    (he : e ∈ l) : blobHash e.2 ∈ l.foldl (fun b x => insertBlob b (blobHash x.2)) bl := by
  induction l generalizing bl with
  | nil => cases he
  | cons x xs ih =>
      rcases List.mem_cons.mp he with he | he
      · subst he
        exact mem_blobFold_mono xs _ _ (mem_insertBlob_self _ _)
      · exact ih _ he

/-- C10: status() is not read-only on the object store: for every non-ignored
file present in the workspace (untracked and modified files included), the
status operation writes that file's content as a blob into the bare
repository, while creating no commit and moving no ref and leaving the
catalog alone. -/
theorem status_writes_blobs (s : State) (ws : Workspace) (ign : String → Bool) :
    (statusOp s ws ign).1.commits = s.commits ∧
    (statusOp s ws ign).1.head = s.head ∧
    (statusOp s ws ign).1.branchesCfg = s.branchesCfg ∧
    (∀ e ∈ scanWorkspace ign ws none, blobHash e.2 ∈ (statusOp s ws ign).1.blobs) := by
  refine ⟨rfl, rfl, rfl, ?_⟩
  intro e he
  exact mem_blobFold _ s.blobs e he

/-- Witness for C10: a status call over a workspace holding one untracked
file u.txt and one modified tracked file a.txt stores both blobs while HEAD
and the commit list stay put. -/
theorem status_writes_blobs_witness :
    ("A2" ∈ (statusOp c1State [("a", "A2"), ("u", "U")] noIgn).1.blobs ∧
     "U" ∈ (statusOp c1State [("a", "A2"), ("u", "U")] noIgn).1.blobs) ∧
    (statusOp c1State [("a", "A2"), ("u", "U")] noIgn).1.commits = c1State.commits ∧
    (statusOp c1State [("a", "A2"), ("u", "U")] noIgn).1.head = c1State.head := by
  have h := status_writes_blobs c1State [("a", "A2"), ("u", "U")] noIgn
  exact ⟨⟨h.2.2.2 ("a", "A2") (by decide), h.2.2.2 ("u", "U") (by decide)⟩, h.1, h.2.1⟩

/-- A brand-new project: no bare repository, no .memignore, nothing tracked. -/
def c8Fresh : State := ⟨[], [], none, none, [], [], false, false⟩

/-- Counterexample to C8 as stated: on an uninitialized project, a
prompt-only record call (files_changed = "") still creates a commit, because
the auto-initialization step writes .memignore and tracks it; HEAD moves
from none to the bootstrap commit. -/
theorem prompt_only_bootstrap_commit :
    c8Fresh.commits.length = 0 ∧ c8Fresh.head = none ∧
    (serverSnap c8Fresh [] noIgn "what is X?" "X is ..." [] "").state.commits.length = 1 ∧
    (serverSnap c8Fresh [] noIgn "what is X?" "X is ..." [] "").state.head = some 0 := by
  refine ⟨rfl, rfl, ?_, ?_⟩ <;> decide

/-- C8 (amended): on a project whose object store is already initialized, a
record call with files_changed equal to the empty string creates no commit:
the commit store, HEAD, the catalog and the workspace are unchanged. -/
theorem prompt_only_noop_when_initialized (s : State) (ws : Workspace) (ign : String → Bool)
    (up orr : String) (ap : List String) (hb : s.bareRepoExists = true) :
    (serverSnap s ws ign up orr ap "").state.commits = s.commits ∧
    (serverSnap s ws ign up orr ap "").state.head = s.head ∧
    (serverSnap s ws ign up orr ap "").state.branchesCfg = s.branchesCfg ∧
    (serverSnap s ws ign up orr ap "").ws = ws := by
  unfold serverSnap
  dsimp only
  rw [show ({ s with pending := [] } : State).bareRepoExists = true from hb]
  split
  · exact ⟨rfl, rfl, rfl, rfl⟩
  · rename_i hc
    exact absurd rfl hc

/-- Witness for C8 (amended): a prompt-only call on an initialized project
changes nothing. -/
theorem prompt_only_noop_witness :
    (serverSnap c1State c1Ws noIgn "what is X?" "X is ..." [] "").state.commits =
      c1State.commits ∧
    (serverSnap c1State c1Ws noIgn "what is X?" "X is ..." [] "").state.head =
      c1State.head := by
  have h := prompt_only_noop_when_initialized c1State c1Ws noIgn "what is X?" "X is ..." []
    (by decide)
  exact ⟨h.1, h.2.1⟩

/-- The message of a commit in the store (GitManager.get_commit_message,
modelled from spec section 4.A). -/
def commitMessage (s : State) (c : Nat) : String :=
  ((s.commits.get? c).map (fun cm => cm.message)).getD ""

/-- The tree produced by committing the full workspace scan: every
non-ignored workspace file rehashed from its current content (the path
rename and remove take, via _filter_new_files with tracked=None). -/
def workspaceScanTree (ign : String → Bool) (ws : Workspace) : Tree :=
  commitOpTree ws ((scanWorkspace ign ws none).map (fun e => e.1))

/-- The tree of the commit `_commit` lands at its own commit id. -/
theorem commitTree_after_commitOp (s : State) (ws : Workspace) (msg op : String)
    (rel : List String) (pr rsp ap : Option String) (bu : Bool) (fs : List String) :
    commitTree (addToPendingWrites (commitOp s ws msg rel).1 op (commitOp s ws msg rel).2
      pr rsp ap bu fs) (commitOp s ws msg rel).2 = commitOpTree ws rel := by
  unfold commitTree
  rw [addToPendingWrites_commits]
  obtain ⟨hcm, _, _, _⟩ := commitOp_spec s ws msg rel
  rw [hcm, commitOp_id, List.get?_concat_length]
  rfl

/-- The message of the commit `_commit` lands at its own commit id. -/
theorem commitMessage_after_commitOp (s : State) (ws : Workspace) (msg op : String)
    (rel : List String) (pr rsp ap : Option String) (bu : Bool) (fs : List String) :
    commitMessage (addToPendingWrites (commitOp s ws msg rel).1 op (commitOp s ws msg rel).2
      pr rsp ap bu fs) (commitOp s ws msg rel).2 = msg := by
  unfold commitMessage
  rw [addToPendingWrites_commits]
  obtain ⟨hcm, _, _, _⟩ := commitOp_spec s ws msg rel
  rw [hcm, commitOp_id, List.get?_concat_length]
  rfl

/-- Any message whose first line is "Rename file" (either rename message
head the source builds) is classified as a rename operation. -/
theorem extractOperationType_rename (msg : String) (hd : List Char)
    (hpre : msg.data = "Rename file\n\n".data ++ hd ∨
      msg.data = "Rename file (already renamed by user)\n\n".data ++ hd) :
    extractOperationType msg = "rename" := by
  obtain ⟨l⟩ := msg
  rcases hpre with hpre | hpre <;> simp only at hpre <;> subst hpre <;> rfl

/-- A project tracking a single file a.txt, clean workspace. -/
def c5State : State :=
  ⟨[⟨[("a", "A")], none, "Track files\n\n"⟩], ["A"], some 0,
   some ⟨some BranchName.main, [(BranchName.main, some 0)]⟩, [], [], true, true⟩

/-- Its workspace before the rename. -/
def c5Ws : Workspace := [("a", "A")]

/-- Counterexample to C5 as stated: after rename(a, b), the rename commit's
tree is {b ↦ A} (the full workspace rehash), while the all-files snapshot on
the post-rename workspace would commit the empty tree (it only rereads files
tracked at HEAD, and a is gone, while the untracked b is excluded); the two
trees differ. -/
theorem rename_tree_not_snapshot_all :
    (rename c5State c5Ws noIgn "a" "b" none none false).2.2 = some 1 ∧
    (snapshot c5State (wsRename c5Ws "a" "b") noIgn none none none none false).2.1 = some 1 ∧
    commitTree (rename c5State c5Ws noIgn "a" "b" none none false).1 1 = [("b", "A")] ∧
    commitTree (snapshot c5State (wsRename c5Ws "a" "b") noIgn none none none none
      false).1 1 = [] ∧
    ¬(([("b", "A")] : Tree) = []) := by
  refine ⟨?_, ?_, ?_, ?_, ?_⟩ <;> decide

/-- C5 (amended): a successful rename commits the tree obtained by rehashing
every non-ignored file of the post-rename workspace (the full workspace
scan, untracked files included), and the commit message's first line encodes
the rename operation. -/
theorem rename_commits_workspace_scan (s : State) (ws : Workspace) (ign : String → Bool)
    (old new : String) (pr rsp : Option String) (bu : Bool) (s1 : State) (ws2 : Workspace)
    (c : Nat) (h : rename s ws ign old new pr rsp bu = (s1, ws2, some c)) :
    commitTree s1 c = workspaceScanTree ign ws2 ∧
    extractOperationType (commitMessage s1 c) = "rename" := by
  unfold rename at h
  dsimp only at h
  split at h
  · simp at h
  · split at h
    · simp at h
    · split at h
      · simp at h
      · by_cases hold : (wsGet ws old).isSome = true
        · simp only [hold] at h
          simp only [Prod.mk.injEq] at h
          obtain ⟨hs1, hw2, hc⟩ := h
          subst hs1
          subst hw2
          replace hc := Option.some.inj hc
          subst hc
          constructor
          · rw [commitTree_after_commitOp]
            rfl
          · rw [commitMessage_after_commitOp]
            refine extractOperationType_rename _ (("Files: " ++ old ++ " -> " ++ new ++
              "\nPrompt: " ++ optStr pr ++ "\nResponse: " ++ optStr rsp ++ "\nSource: " ++
              srcStr bu).data) (Or.inl ?_)
            simp only [if_true, String.data_append, List.append_assoc]
        · rw [Bool.not_eq_true] at hold
          simp only [hold] at h
          simp only [Prod.mk.injEq] at h
          obtain ⟨hs1, hw2, hc⟩ := h
          subst hs1
          subst hw2
          replace hc := Option.some.inj hc
          subst hc
          constructor
          · rw [commitTree_after_commitOp]
            rfl
          · rw [commitMessage_after_commitOp]
            refine extractOperationType_rename _ (("Files: " ++ old ++ " -> " ++ new ++
              "\nPrompt: " ++ optStr pr ++ "\nResponse: " ++ optStr rsp ++ "\nSource: " ++
              srcStr bu).data) (Or.inr ?_)
            simp only [Bool.false_eq_true, if_false, String.data_append, List.append_assoc]

/-- Witness for C5 (amended): the concrete rename of a to b commits exactly
the workspace-scan tree of the post-rename workspace, with a rename message. -/
theorem rename_workspace_scan_witness :
    commitTree (rename c5State c5Ws noIgn "a" "b" none none false).1 1 =
      workspaceScanTree noIgn (rename c5State c5Ws noIgn "a" "b" none none false).2.1 ∧
    extractOperationType
      (commitMessage (rename c5State c5Ws noIgn "a" "b" none none false).1 1) = "rename" :=
  rename_commits_workspace_scan c5State c5Ws noIgn "a" "b" none none false
    (rename c5State c5Ws noIgn "a" "b" none none false).1
    (rename c5State c5Ws noIgn "a" "b" none none false).2.1 1 (by decide)

/-- An input no longer than the chunk size is returned as a single chunk. -/
theorem chunkText_short (cs os : Nat) (text : String) (hne : text ≠ "")
    (hle : text.length ≤ cs) : chunkText cs os text = .ok [text] := by
  unfold chunkText
  rw [if_neg hne, if_pos hle]

/-- Inserting a short non-empty text appends exactly one record carrying the
given role metadata. -/
theorem vdbInsert_single (vdb : List VRecord) (text : String) (rm : RoleMeta) (d : String)
    (hne : text ≠ "") (hle : text.length ≤ 768) :
    vdbInsert vdb text rm (some d) =
      .ok (vdb ++ [⟨d ++ "_chunk_" ++ toString 0, text, ⟨rm, 0, 1, text⟩⟩]) := by
  unfold vdbInsert
  rw [chunkText_short _ _ _ hne hle]
  rfl

/-- One role insert of a short non-empty role text appends exactly one
record with doc id prefix commit ++ "_" ++ role. -/
theorem insertRole_some (vdb : List VRecord) (t roleName ch : String) (base : BaseMeta)
    (h1 : t ≠ "") (h2 : t.length ≤ 768) :
    insertRole vdb (some t) roleName ch base =
      .ok (vdb ++ [⟨ch ++ "_" ++ roleName ++ "_chunk_" ++ toString 0, t,
        ⟨⟨base, roleName⟩, 0, 1, t⟩⟩]) := by
  unfold insertRole
  dsimp only
  rw [if_neg h1]
  exact vdbInsert_single _ _ _ _ h1 h2

/-- C2 (amended): after one commit with non-empty prompt, response and plan
(each within one chunk) has been enqueued, draining the queue performs three
independent role inserts, one per role, each tagged metadata.role and all
tagged with the commit's hash, and returns successful=1 and failed=0: the
counters count pending entries, not role documents. -/
theorem sync_splits_roles_amended (s : State) (e : PendingWrite) (p r pl : String)
    (hpend : s.pending = [e])
    (hp : e.prompt = some p) (hp1 : p ≠ "") (hp2 : p.length ≤ 768)
    (hr : e.response = some r) (hr1 : r ≠ "") (hr2 : r.length ≤ 768)
    (hl : e.agentPlan = some pl) (hl1 : pl ≠ "") (hl2 : pl.length ≤ 768) :
    (syncToVectordb s).2 = (1, 0) ∧
    (syncToVectordb s).1.pending = [] ∧
    (syncToVectordb s).1.vdb = s.vdb ++
      [⟨commitHashStr e.commitHash ++ "_" ++ "prompt" ++ "_chunk_" ++ toString 0, p,
         ⟨⟨syncBaseMeta e, "prompt"⟩, 0, 1, p⟩⟩,
       ⟨commitHashStr e.commitHash ++ "_" ++ "response" ++ "_chunk_" ++ toString 0, r,
         ⟨⟨syncBaseMeta e, "response"⟩, 0, 1, r⟩⟩,
       ⟨commitHashStr e.commitHash ++ "_" ++ "plan" ++ "_chunk_" ++ toString 0, pl,
         ⟨⟨syncBaseMeta e, "plan"⟩, 0, 1, pl⟩⟩] := by
  have hsplit : insertSplitted s.vdb (commitHashStr e.commitHash) e.prompt e.response
      e.agentPlan (syncBaseMeta e) = .ok (s.vdb ++
      [⟨commitHashStr e.commitHash ++ "_" ++ "prompt" ++ "_chunk_" ++ toString 0, p,
         ⟨⟨syncBaseMeta e, "prompt"⟩, 0, 1, p⟩⟩,
       ⟨commitHashStr e.commitHash ++ "_" ++ "response" ++ "_chunk_" ++ toString 0, r,
         ⟨⟨syncBaseMeta e, "response"⟩, 0, 1, r⟩⟩,
       ⟨commitHashStr e.commitHash ++ "_" ++ "plan" ++ "_chunk_" ++ toString 0, pl,
         ⟨⟨syncBaseMeta e, "plan"⟩, 0, 1, pl⟩⟩]) := by
    rw [hp, hr, hl]
    unfold insertSplitted
    rw [insertRole_some _ _ _ _ _ hp1 hp2]
    dsimp only
    rw [insertRole_some _ _ _ _ _ hr1 hr2]
    dsimp only
    rw [insertRole_some _ _ _ _ _ hl1 hl2]
    simp [List.append_assoc]
  unfold syncToVectordb
  rw [hpend]
  rw [if_neg (by simp)]
  simp only [List.foldl_cons, List.foldl_nil]
  unfold syncStep
  dsimp only
  rw [hsplit]
  exact ⟨rfl, trivial, rfl⟩

/-- The state after one AI partial snapshot with prompt "p", response "r" and
plan "plan" has been recorded on a one-commit store: exactly one pending
entry is enqueued. -/
def c2State : State :=
  (snapshot c1bState c1bWs noIgn (some ["b"]) (some "p") (some "r") (some "plan") false).1

/-- The pending entry that snapshot call enqueues. -/
def c2Entry : PendingWrite :=
  ⟨"snap", 1, some "p", some "r", some "plan", false, ["b"], none⟩

/-- C2 (counterexample): after exactly one commit with non-empty prompt,
response and plan has been enqueued, sync_to_vectordb returns successful=1
and failed=0 — not successful=3 — because the counters count pending
entries, not role documents; the three role records are still inserted. -/
theorem sync_counts_per_entry_counterexample :
    c2State.pending = [c2Entry] ∧
    (syncToVectordb c2State).2 = (1, 0) ∧
    (syncToVectordb c2State).1.vdb.length = 3 ∧
    (syncToVectordb c2State).2 ≠ (3, 0) := by
  refine ⟨by decide, by decide, by decide, by decide⟩

/-- Witness for C2: the amended theorem applied to that concrete state. -/
theorem sync_splits_roles_witness :
    (syncToVectordb c2State).2 = (1, 0) ∧
    (syncToVectordb c2State).1.pending = [] ∧
    (syncToVectordb c2State).1.vdb = c2State.vdb ++
      [⟨commitHashStr c2Entry.commitHash ++ "_" ++ "prompt" ++ "_chunk_" ++ toString 0, "p",
         ⟨⟨syncBaseMeta c2Entry, "prompt"⟩, 0, 1, "p"⟩⟩,
       ⟨commitHashStr c2Entry.commitHash ++ "_" ++ "response" ++ "_chunk_" ++ toString 0, "r",
         ⟨⟨syncBaseMeta c2Entry, "response"⟩, 0, 1, "r"⟩⟩,
       ⟨commitHashStr c2Entry.commitHash ++ "_" ++ "plan" ++ "_chunk_" ++ toString 0, "plan",
         ⟨⟨syncBaseMeta c2Entry, "plan"⟩, 0, 1, "plan"⟩⟩] :=
  sync_splits_roles_amended c2State c2Entry "p" "r" "plan" (by decide) rfl (by decide)
    (by decide) rfl (by decide) (by decide) rfl (by decide) (by decide)

/-- `_commit` leaves the pending list alone (projection form). -/
theorem commitOp_pending (s : State) (ws : Workspace) (msg : String) (rel : List String) :
    (commitOp s ws msg rel).1.pending = s.pending :=
  (commitOp_spec s ws msg rel).2.2.1

/-- After `_commit`, HEAD points at the returned commit id. -/
theorem commitOp_head2 (s : State) (ws : Workspace) (msg : String) (rel : List String) :
    (commitOp s ws msg rel).1.head = some ((commitOp s ws msg rel).2) := by
  rw [commitOp_id]
  exact (commitOp_spec s ws msg rel).2.1

/-- A rename either leaves the pending list alone (its early returns) or
appends exactly one entry with operation type "rename" and parent hash
None. -/
theorem rename_pending_spec (s : State) (ws : Workspace) (ign : String → Bool)
    (old new : String) (pr rsp : Option String) (bu : Bool) :
    (rename s ws ign old new pr rsp bu).1.pending = s.pending ∨
    ∃ e : PendingWrite,
      (rename s ws ign old new pr rsp bu).1.pending = s.pending ++ [e] ∧
      e.parentHash = none ∧ e.operationType = "rename" := by
  unfold rename
  dsimp only
  split
  · left; rfl
  · split
    · left; rfl
    · split
      · left; rfl
      · right
        exact ⟨_, by rw [addToPendingWrites_pending, commitOp_pending],
          mkPendingEntry_parentHash_none _ _ _ _ _ _ _ _ (commitOp_head2 _ _ _ _), rfl⟩

/-- A successful chunked insert appends records all carrying the given role
metadata. -/
theorem vdbInsert_appends (vdb : List VRecord) (t : String) (rm : RoleMeta)
    (d : Option String) (v2 : List VRecord) (h : vdbInsert vdb t rm d = .ok v2) :
    ∃ l, v2 = vdb ++ l ∧ ∀ rec ∈ l, rec.meta.rm = rm := by
  unfold vdbInsert at h
  cases hc : chunkText 768 100 t with
  | error e => rw [hc] at h; exact absurd h (by simp)
  | ok chunks =>
      rw [hc] at h
      dsimp only at h
      replace h := Except.ok.inj h
      refine ⟨_, h.symm, ?_⟩
      intro rec hrec
      simp only [List.mem_map] at hrec
      obtain ⟨p, _, hpe⟩ := hrec
      subst hpe
      rfl

/-- A successful role insert appends records all carrying the given base
metadata. -/
theorem insertRole_appends (vdb : List VRecord) (val : Option String) (roleName ch : String)
    (base : BaseMeta) (v2 : List VRecord) (h : insertRole vdb val roleName ch base = .ok v2) :
    ∃ l, v2 = vdb ++ l ∧ ∀ rec ∈ l, rec.meta.rm.base = base := by
  cases val with
  | none =>
      unfold insertRole at h
      dsimp only at h
      cases h
      exact ⟨[], by simp, by simp⟩
  | some t =>
      unfold insertRole at h
      dsimp only at h
      split at h
      · cases h
        exact ⟨[], by simp, by simp⟩
      · obtain ⟨l, hl, hall⟩ := vdbInsert_appends _ _ _ _ _ h
        refine ⟨l, hl, ?_⟩
        intro rec hr
        rw [hall rec hr]

/-- A successful splitted insert appends records all carrying the given base
metadata. -/
theorem insertSplitted_appends (vdb : List VRecord) (ch : String)
    (p r pl : Option String) (base : BaseMeta) (v2 : List VRecord)
    (h : insertSplitted vdb ch p r pl base = .ok v2) :
    ∃ l, v2 = vdb ++ l ∧ ∀ rec ∈ l, rec.meta.rm.base = base := by
  unfold insertSplitted at h
  cases h1 : insertRole vdb p "prompt" ch base with
  | error e => rw [h1] at h; exact absurd h (by simp)
  | ok va =>
      rw [h1] at h
      dsimp only at h
      cases h2 : insertRole va r "response" ch base with
      | error e => rw [h2] at h; exact absurd h (by simp)
      | ok vb =>
          rw [h2] at h
          dsimp only at h
          obtain ⟨l1, e1, a1⟩ := insertRole_appends _ _ _ _ _ _ h1
          obtain ⟨l2, e2, a2⟩ := insertRole_appends _ _ _ _ _ _ h2
          obtain ⟨l3, e3, a3⟩ := insertRole_appends _ _ _ _ _ _ h
          refine ⟨l1 ++ l2 ++ l3, ?_, ?_⟩
          · rw [e3, e2, e1]
            simp [List.append_assoc]
          · intro rec hr
            rcases List.mem_append.1 hr with hr12 | hr3
            · rcases List.mem_append.1 hr12 with hr1 | hr2
              · exact a1 _ hr1
              · exact a2 _ hr2
            · exact a3 _ hr3

/-- The sync loop only appends to the vector index, and when every drained
entry has parent hash None, every appended record's base metadata has parent
hash None. -/
theorem syncFold_appends (entries : List PendingWrite) :
    ∀ (vdb : List VRecord) (a b : Nat), (∀ e ∈ entries, e.parentHash = none) →
    ∃ l, (entries.foldl syncStep (vdb, a, b)).1 = vdb ++ l ∧
      ∀ rec ∈ l, rec.meta.rm.base.parentHash = none := by
  induction entries with
  | nil =>
      intro vdb a b _
      exact ⟨[], by simp, by simp⟩
  | cons e rest ih =>
      intro vdb a b hall
      have he : e.parentHash = none := hall e (by simp)
      have hrest : ∀ x ∈ rest, x.parentHash = none := fun x hx => hall x (by simp [hx])
      simp only [List.foldl_cons]
      cases hc : insertSplitted vdb (commitHashStr e.commitHash) e.prompt e.response
          e.agentPlan (syncBaseMeta e) with
      | error err =>
          have hstep : syncStep (vdb, a, b) e = (vdb, a, b + 1) := by
            unfold syncStep
            dsimp only
            rw [hc]
          rw [hstep]
          exact ih vdb a (b + 1) hrest
      | ok v2 =>
          have hstep : syncStep (vdb, a, b) e = (v2, a + 1, b) := by
            unfold syncStep
            dsimp only
            rw [hc]
          rw [hstep]
          obtain ⟨l1, e1, a1⟩ := insertSplitted_appends _ _ _ _ _ _ _ hc
          obtain ⟨l2, e2, a2⟩ := ih v2 (a + 1) b hrest
          refine ⟨l1 ++ l2, ?_, ?_⟩
          · rw [e2, e1, List.append_assoc]
          · intro rec hr
            rcases List.mem_append.1 hr with h1 | h2
            · have hb := a1 _ h1
              rw [hb]
              simp [syncBaseMeta, he]
            · exact a2 _ h2

/-- C9 (amended): every pending entry enqueued by track, snapshot or rename
has parent_hash None — the entry is enqueued only after the branch update
has advanced HEAD to the new commit, so head_commit != commit_hash in
_add_to_pending_writes is always false — and consequently the vector-record
metadata field parent_hash is None (the Python value None), not the empty
string: metadata["parent_hash"] = write_data.get("parent_hash", "") never
uses the empty-string default because the key is always present. -/
theorem pending_parent_none_amended :
    (∀ (s : State) (ws : Workspace) (ign : String → Bool) (fps : List String)
       (pr rsp : Option String) (bu : Bool),
       ∀ e ∈ ((track s ws ign fps pr rsp bu).1.pending.drop s.pending.length),
         e.parentHash = none) ∧
    (∀ (s : State) (ws : Workspace) (ign : String → Bool) (fpo : Option (List String))
       (pr rsp ap : Option String) (bu : Bool),
       ∀ e ∈ ((snapshot s ws ign fpo pr rsp ap bu).1.pending.drop s.pending.length),
         e.parentHash = none) ∧
    (∀ (s : State) (ws : Workspace) (ign : String → Bool) (old new : String)
       (pr rsp : Option String) (bu : Bool),
       ∀ e ∈ ((rename s ws ign old new pr rsp bu).1.pending.drop s.pending.length),
         e.parentHash = none) ∧
    (∀ s : State, (∀ e ∈ s.pending, e.parentHash = none) →
       ∀ rec ∈ ((syncToVectordb s).1.vdb.drop s.vdb.length),
         rec.meta.rm.base.parentHash = none) := by
  refine ⟨?_, ?_, ?_, ?_⟩
  · intro s ws ign fps pr rsp bu e he
    rcases h : track s ws ign fps pr rsp bu with ⟨s1, oc, st⟩
    rw [h] at he
    dsimp only at he
    cases oc with
    | none =>
        have h1 := track_none_spec _ _ _ _ _ _ _ _ _ h
        subst h1
        rw [List.drop_length] at he
        simp at he
    | some c =>
        obtain ⟨_, _, _, e0, hp, hpar, _, _⟩ := track_some_spec _ _ _ _ _ _ _ _ _ _ h
        rw [hp, List.drop_left] at he
        rw [List.mem_singleton] at he
        subst he
        exact hpar
  · intro s ws ign fpo pr rsp ap bu e he
    rcases h : snapshot s ws ign fpo pr rsp ap bu with ⟨s1, oc, st⟩
    rw [h] at he
    dsimp only at he
    cases oc with
    | none =>
        have h1 := (snapshot_none_spec _ _ _ _ _ _ _ _ _ _ h).2.2
        rw [h1, List.drop_length] at he
        simp at he
    | some c =>
        obtain ⟨_, _, _, e0, hp, hpar, _, _⟩ := snapshot_some_spec _ _ _ _ _ _ _ _ _ _ _ h
        rw [hp, List.drop_left] at he
        rw [List.mem_singleton] at he
        subst he
        exact hpar
  · intro s ws ign old new pr rsp bu e he
    rcases rename_pending_spec s ws ign old new pr rsp bu with h | ⟨e0, hp, hpar, _⟩
    · rw [h, List.drop_length] at he
      simp at he
    · rw [hp, List.drop_left] at he
      rw [List.mem_singleton] at he
      subst he
      exact hpar
  · intro s hall rec hrec
    by_cases hp : s.pending = []
    · unfold syncToVectordb at hrec
      rw [if_pos hp] at hrec
      dsimp only at hrec
      rw [List.drop_length] at hrec
      simp at hrec
    · unfold syncToVectordb at hrec
      rw [if_neg hp] at hrec
      dsimp only at hrec
      obtain ⟨l, hl, ha⟩ := syncFold_appends s.pending s.vdb 0 0 hall
      rw [hl, List.drop_left] at hrec
      exact ha rec hrec

/-- The pending entry the C9 track run enqueues (its parent hash is settled
by the amended theorem). -/
def trackC9Entry : PendingWrite := ⟨"track", 1, none, none, none, true, ["n"], none⟩

/-- The prompt vector record the C9 sync run stores. -/
def c9Rec : VRecord :=
  ⟨"1_prompt_chunk_0", "p", ⟨⟨⟨"snap", "ai", "b", "1", none⟩, "prompt"⟩, 0, 1, "p"⟩⟩

/-- Witness for C9: the amended theorem applied to a concrete track run (the
new commit 1 has parent 0, yet the entry's parent hash is None) and to a
concrete drained record. -/
theorem pending_parent_none_witness :
    trackC9Entry.parentHash = none ∧ c9Rec.meta.rm.base.parentHash = none :=
  ⟨pending_parent_none_amended.1 c1State c1Ws noIgn ["n"] none none true trackC9Entry
     (by decide),
   pending_parent_none_amended.2.2.2 c2State (by decide) c9Rec (by decide)⟩

/-- C9 (counterexample): the stored vector metadata's parent_hash is None,
not the empty string: the records drained from a concrete snapshot have
parent_hash None and not every record has parent_hash equal to "". -/
theorem parent_hash_empty_string_counterexample :
    (syncToVectordb c2State).1.vdb.length = 3 ∧
    ((syncToVectordb c2State).1.vdb.map (fun rec => rec.meta.rm.base.parentHash)) =
      [none, none, none] ∧
    ((syncToVectordb c2State).1.vdb.all
      (fun rec => rec.meta.rm.base.parentHash == some "")) = false := by
  refine ⟨by decide, by decide, by decide⟩

/-- C3 (code_bug): pending-write entries do not survive until the next sync
call.  MemMCPTools.mem_sync constructs a fresh MemovManager, whose in-memory
_pending_writes list starts empty, so every mem_sync call observes 0 pending
entries and returns before invoking sync_to_vectordb — and concretely, a
recorder turn that creates three commits (enqueuing a pending entry per
commit on its own short-lived manager) is followed by a sync that observes 0
entries and processes none of them, although the docstrings of snap
("Changes are cached in memory. Run mem_sync") and mem_sync promise the
queued entries are drained. -/
theorem pending_lost_between_calls :
    (∀ s : State, (memSync s).observedPending = 0 ∧ (memSync s).performedSync = false ∧
       (memSync s).successful = 0 ∧ (memSync s).failed = 0 ∧
       (memSync s).state.vdb = s.vdb) ∧
    ((serverSnap c4State c4Ws noIgn "u" "r2" ["step"] "n,b").state.commits.length =
       c4State.commits.length + 3 ∧
     (memSync (serverSnap c4State c4Ws noIgn "u" "r2" ["step"] "n,b").state).observedPending
       = 0 ∧
     (memSync (serverSnap c4State c4Ws noIgn "u" "r2" ["step"] "n,b").state).performedSync
       = false ∧
     (memSync (serverSnap c4State c4Ws noIgn "u" "r2" ["step"] "n,b").state).state.vdb
       = []) := by
  refine ⟨fun s => ⟨rfl, rfl, rfl, rfl, rfl⟩, by decide, by decide, by decide, by decide⟩
